import Mathlib

/-!
# Verification of the activity-tracking and cache-refresh core

This file gives a shallow embedding, in Lean 4, of the core of the
repository (daily-summary aggregation, streak calculation, heatmap
generation, bulk aggregation, task-ledger upserts and the cache refresh
protocol), and proves or refutes the frozen specification claims about it.

Conventions of the embedding:
* Python `datetime` values are modelled as natural numbers counting
  microseconds since the epoch (Python datetimes have microsecond
  resolution); Python `date` values are day numbers (`ℕ` where only
  non-negative arithmetic occurs, `ℤ` where subtraction matters).
* Database tables are modelled as lists of rows; SQLAlchemy queries
  become list traversals.
* Python code that can raise is modelled with `Except String`.
-/

set_option autoImplicit false

namespace ActivityRepo

/-- Microseconds in one calendar day; `datetime.max.time()` on a day `d` is
microsecond `d * microsecondsPerDay + (microsecondsPerDay - 1)`. -/
def microsecondsPerDay : ℕ := 86400000000

/-- Row of the `conversation_activities` table (fields used by aggregation). -/
structure ConversationActivity where
  person_id : ℕ
  notion_conversation_id : String
  created_at : ℕ
  deriving DecidableEq, Repr

/-- Row of the `task_activities` table. -/
structure TaskActivity where
  person_id : ℕ
  notion_task_id : String
  task_title : Option String
  project_name : Option String
  completed_at : ℕ
  last_status_change : Option ℕ
  notion_metadata : Option String
  last_synced_at : ℕ
  deriving DecidableEq, Repr

/-- Row of the `activity_summaries` table. -/
structure ActivitySummary where
  person_id : ℕ
  date : ℕ
  conversations_created : ℕ
  tasks_completed : ℕ
  total_activity_score : ℕ
  deriving DecidableEq, Repr

/-- The activity ledger: the two event tables read by the aggregator. -/
structure Ledger where
  conversations : List ConversationActivity
  tasks : List TaskActivity
  deriving DecidableEq, Repr

/-- `func.date` on a stored datetime: the calendar-day number. -/
def dateOnly (t : ℕ) : ℕ := t / microsecondsPerDay

/-- The key comparison used by `create_or_update_summary`:
`ActivitySummary.person_id == person_id AND func.date(ActivitySummary.date) == date.date()`. -/
def summaryKeyMatch (person_id day : ℕ) (r : ActivitySummary) : Bool :=
  decide (r.person_id = person_id) && decide (dateOnly r.date = day)

/-- Replace the first list element satisfying `p` by `f` of it (SQLAlchemy
mutates the single ORM object returned by the lookup, in place). -/
def updateFirst {α : Type} (p : α → Bool) (f : α → α) : List α → List α
  | [] => []
  | x :: xs => if p x then f x :: xs else x :: updateFirst p f xs

/-- `ActivityRepository.create_or_update_summary`: look up the summary row for
`(person_id, date.date())`; update it in place if present, otherwise insert a
new row.  `scalar_one_or_none` raises `MultipleResultsFound` when more than
one row matches.  Returns the new table together with the written summary. -/
def create_or_update_summary (table : List ActivitySummary) (person_id : ℕ)
    (date : ℕ) (conversations_created tasks_completed total_activity_score : ℕ) :
    Except String (List ActivitySummary × ActivitySummary) :=
  match table.filter (summaryKeyMatch person_id (dateOnly date)) with
  | [] =>
      .ok (table ++
        [⟨person_id, date, conversations_created, tasks_completed, total_activity_score⟩],
        ⟨person_id, date, conversations_created, tasks_completed, total_activity_score⟩)
  | [r] =>
      .ok (updateFirst (summaryKeyMatch person_id (dateOnly date))
        (fun _ => { r with
          date := date
          conversations_created := conversations_created
          tasks_completed := tasks_completed
          total_activity_score := total_activity_score }) table,
        { r with
          date := date
          conversations_created := conversations_created
          tasks_completed := tasks_completed
          total_activity_score := total_activity_score })
  | _ => .error "MultipleResultsFound"

/-- The conversation count inside `aggregate_daily_activities`:
rows with this person and `start_datetime <= created_at <= end_datetime`
where `end_datetime` carries time `datetime.max.time()` (23:59:59.999999). -/
def conversationsCountCode (ledger : Ledger) (person_id target_date : ℕ) : ℕ :=
  ledger.conversations.countP (fun c =>
    decide (c.person_id = person_id) &&
    decide (target_date * microsecondsPerDay ≤ c.created_at) &&
    decide (c.created_at ≤ target_date * microsecondsPerDay + (microsecondsPerDay - 1)))

/-- The task count inside `aggregate_daily_activities`, over `completed_at`. -/
def tasksCountCode (ledger : Ledger) (person_id target_date : ℕ) : ℕ :=
  ledger.tasks.countP (fun t =>
    decide (t.person_id = person_id) &&
    decide (target_date * microsecondsPerDay ≤ t.completed_at) &&
    decide (t.completed_at ≤ target_date * microsecondsPerDay + (microsecondsPerDay - 1)))

/-- `ActivityRepository.aggregate_daily_activities`: count the person's
conversation and task events on `target_date`, compute
`total_score = conversations_count + tasks_count * 2`, and upsert the summary
row (with `date = start_datetime`, midnight of the target date). -/
def aggregate_daily_activities (ledger : Ledger) (table : List ActivitySummary)
    (person_id target_date : ℕ) :
    Except String (List ActivitySummary × ActivitySummary) :=
  let conversations_count := conversationsCountCode ledger person_id target_date
  let tasks_count := tasksCountCode ledger person_id target_date
  let total_score := conversations_count + tasks_count * 2
  create_or_update_summary table person_id (target_date * microsecondsPerDay)
    conversations_count tasks_count total_score

/-- Claim-side conversation count: events of the person whose timestamp lies
in the half-open UTC interval `[day 00:00, day 24:00)`. -/
def conversationsCountClaim (ledger : Ledger) (person_id target_date : ℕ) : ℕ :=
  ledger.conversations.countP (fun c =>
    decide (c.person_id = person_id) &&
    decide (target_date * microsecondsPerDay ≤ c.created_at) &&
    decide (c.created_at < (target_date + 1) * microsecondsPerDay))

/-- Claim-side task-completion count over the half-open interval. -/
def tasksCountClaim (ledger : Ledger) (person_id target_date : ℕ) : ℕ :=
  ledger.tasks.countP (fun t =>
    decide (t.person_id = person_id) &&
    decide (target_date * microsecondsPerDay ≤ t.completed_at) &&
    decide (t.completed_at < (target_date + 1) * microsecondsPerDay))

theorem conversationsCount_code_eq_claim (ledger : Ledger) (p d : ℕ) :
    conversationsCountCode ledger p d = conversationsCountClaim ledger p d := by
  unfold conversationsCountCode conversationsCountClaim
  apply List.countP_congr
  intro c _
  constructor <;> intro h <;>
    simp only [Bool.and_eq_true, decide_eq_true_eq] at h ⊢ <;>
    refine ⟨⟨h.1.1, h.1.2⟩, ?_⟩ <;> unfold microsecondsPerDay at * <;> omega

theorem tasksCount_code_eq_claim (ledger : Ledger) (p d : ℕ) :
    tasksCountCode ledger p d = tasksCountClaim ledger p d := by
  unfold tasksCountCode tasksCountClaim
  apply List.countP_congr
  intro c _
  constructor <;> intro h <;>
    simp only [Bool.and_eq_true, decide_eq_true_eq] at h ⊢ <;>
    refine ⟨⟨h.1.1, h.1.2⟩, ?_⟩ <;> unfold microsecondsPerDay at * <;> omega

theorem create_or_update_summary_snd (table : List ActivitySummary)
    (p dt c t s : ℕ) (table₂ : List ActivitySummary) (out : ActivitySummary)
    (h : create_or_update_summary table p dt c t s = .ok (table₂, out)) :
    out.person_id = p ∧ out.date = dt ∧ out.conversations_created = c ∧
      out.tasks_completed = t ∧ out.total_activity_score = s ∧ out ∈ table₂ := by
  unfold create_or_update_summary at h
  cases hf : table.filter (summaryKeyMatch p (dateOnly dt)) with
  | nil =>
      rw [hf] at h
      simp only [Except.ok.injEq, Prod.mk.injEq] at h
      obtain ⟨htab, hout⟩ := h
      subst htab hout
      refine ⟨rfl, rfl, rfl, rfl, rfl, ?_⟩
      simp
  | cons r rest =>
      cases rest with
      | nil =>
          rw [hf] at h
          simp only [Except.ok.injEq, Prod.mk.injEq] at h
          obtain ⟨htab, hout⟩ := h
          subst htab hout
          refine ⟨?_, rfl, rfl, rfl, rfl, ?_⟩
          · have hr : r ∈ table.filter (summaryKeyMatch p (dateOnly dt)) := by
              rw [hf]; exact List.mem_cons_self _ _
            have := List.of_mem_filter hr
            unfold summaryKeyMatch at this
            simp only [Bool.and_eq_true, decide_eq_true_eq] at this
            exact this.1
          · -- the updated row is placed where the first key match was
            have hr : r ∈ table.filter (summaryKeyMatch p (dateOnly dt)) := by
              rw [hf]; exact List.mem_cons_self _ _
            have hrt : r ∈ table := List.mem_of_mem_filter hr
            have hkey : summaryKeyMatch p (dateOnly dt) r = true := List.of_mem_filter hr
            clear hf hr
            induction table with
            | nil => cases hrt
            | cons x xs ih =>
                unfold updateFirst
                by_cases hx : summaryKeyMatch p (dateOnly dt) x = true
                · simp [hx]
                · have : r ∈ xs := by
                    rcases List.mem_cons.mp hrt with h1 | h1
                    · exact absurd (h1 ▸ hkey) hx
                    · exact h1
                  simp only [hx, Bool.false_eq_true, if_false]
                  exact List.mem_cons_of_mem _ (ih this)
      | cons r2 rest2 =>
          rw [hf] at h
          cases h

/-- **C1.** For every ledger state, person and day, a successful run of
`aggregate_daily_activities` writes a summary whose `conversations_created`
is the number of the person's conversation events with timestamp in the
half-open UTC interval `[day 00:00, day 24:00)`, whose `tasks_completed` is
the number of the person's task-completion events in that interval, and whose
`total_activity_score` is `conversations_created + 2 * tasks_completed`. -/
theorem aggregate_counts_and_score (ledger : Ledger) (table : List ActivitySummary)
    (p d : ℕ) (table₂ : List ActivitySummary) (s : ActivitySummary)
    (h : aggregate_daily_activities ledger table p d = .ok (table₂, s)) :
    s.conversations_created = conversationsCountClaim ledger p d ∧
      s.tasks_completed = tasksCountClaim ledger p d ∧
      s.total_activity_score = s.conversations_created + 2 * s.tasks_completed ∧
      s ∈ table₂ := by
  unfold aggregate_daily_activities at h
  have hx := create_or_update_summary_snd _ _ _ _ _ _ _ _ h
  obtain ⟨-, -, hc, ht, hs, hmem⟩ := hx
  refine ⟨?_, ?_, ?_, hmem⟩
  · rw [hc, conversationsCount_code_eq_claim]
  · rw [ht, tasksCount_code_eq_claim]
  · rw [hc, ht, hs]; ring

/-- Witness for C1: a concrete ledger with three conversations and two
completed tasks on day 3 (plus out-of-window noise) aggregates to counts 3
and 2 and score 7. -/
theorem aggregate_counts_and_score_witness :
    ∃ table₂ s,
      aggregate_daily_activities
        ⟨[⟨1, "c1", 3 * microsecondsPerDay⟩,
          ⟨1, "c2", 3 * microsecondsPerDay + 5⟩,
          ⟨1, "c3", 4 * microsecondsPerDay - 1⟩,
          ⟨1, "c4", 4 * microsecondsPerDay⟩,
          ⟨2, "c5", 3 * microsecondsPerDay⟩],
         [⟨1, "t1", none, none, 3 * microsecondsPerDay + 7, none, none, 0⟩,
          ⟨1, "t2", none, none, 3 * microsecondsPerDay + 8, none, none, 0⟩,
          ⟨1, "t3", none, none, 2 * microsecondsPerDay, none, none, 0⟩]⟩
        [] 1 3 = .ok (table₂, s) ∧
      s.conversations_created = 3 ∧ s.tasks_completed = 2 ∧
      s.total_activity_score = 7 := by
  refine ⟨_, _, rfl, ?_⟩
  have h := aggregate_counts_and_score
    ⟨[⟨1, "c1", 3 * microsecondsPerDay⟩,
      ⟨1, "c2", 3 * microsecondsPerDay + 5⟩,
      ⟨1, "c3", 4 * microsecondsPerDay - 1⟩,
      ⟨1, "c4", 4 * microsecondsPerDay⟩,
      ⟨2, "c5", 3 * microsecondsPerDay⟩],
     [⟨1, "t1", none, none, 3 * microsecondsPerDay + 7, none, none, 0⟩,
      ⟨1, "t2", none, none, 3 * microsecondsPerDay + 8, none, none, 0⟩,
      ⟨1, "t3", none, none, 2 * microsecondsPerDay, none, none, 0⟩]⟩
    [] 1 3 _ _ rfl
  obtain ⟨hc, ht, hs, -⟩ := h
  rw [hc, ht] at hs ⊢
  refine ⟨by decide, by decide, ?_⟩
  rw [hs]
  decide

/-- Number of rows of the summary table keyed `(person, day)`. -/
def keyCount (table : List ActivitySummary) (person_id day : ℕ) : ℕ :=
  table.countP (summaryKeyMatch person_id day)

theorem filter_updateFirst {p : ActivitySummary → Bool} {s : ActivitySummary}
    (hs : p s = true) :
    ∀ table r, table.filter p = [r] →
      (updateFirst p (fun _ => s) table).filter p = [s] := by
  intro table
  induction table with
  | nil => intro r hr; cases hr
  | cons x xs ih =>
      intro r hr
      by_cases hx : p x = true
      · rw [List.filter_cons_of_pos hx] at hr
        have hxs : xs.filter p = [] := by
          cases hxr : xs.filter p with
          | nil => rfl
          | cons a l => rw [hxr] at hr; cases hr
        unfold updateFirst
        simp [hx, hs, hxs]
      · rw [List.filter_cons_of_neg (by simpa using hx)] at hr
        unfold updateFirst
        simp only [hx, Bool.false_eq_true, if_false]
        rw [List.filter_cons_of_neg (by simpa using hx)]
        exact ih r hr

theorem create_or_update_summary_ok (table : List ActivitySummary)
    (p dt c t sc : ℕ)
    (h : keyCount table p (dateOnly dt) ≤ 1) :
    ∃ table₂, create_or_update_summary table p dt c t sc =
        .ok (table₂, ⟨p, dt, c, t, sc⟩) ∧
      table₂.filter (summaryKeyMatch p (dateOnly dt)) = [(⟨p, dt, c, t, sc⟩ : ActivitySummary)] := by
  have hnew : summaryKeyMatch p (dateOnly dt) (⟨p, dt, c, t, sc⟩ : ActivitySummary) = true := by
    unfold summaryKeyMatch; simp
  unfold keyCount at h
  rw [List.countP_eq_length_filter] at h
  cases hf : table.filter (summaryKeyMatch p (dateOnly dt)) with
  | nil =>
      refine ⟨table ++ [⟨p, dt, c, t, sc⟩], ?_, ?_⟩
      · unfold create_or_update_summary
        rw [hf]
      · rw [List.filter_append, hf, List.filter_cons_of_pos hnew]
        simp
  | cons r rest =>
      cases rest with
      | nil =>
          have hr : r ∈ table.filter (summaryKeyMatch p (dateOnly dt)) := by
            rw [hf]; exact List.mem_cons_self _ _
          have hkey := List.of_mem_filter hr
          have hpid : r.person_id = p := by
            unfold summaryKeyMatch at hkey
            simp only [Bool.and_eq_true, decide_eq_true_eq] at hkey
            exact hkey.1
          have hrec : ({ r with
              date := dt, conversations_created := c, tasks_completed := t,
              total_activity_score := sc } : ActivitySummary) = ⟨p, dt, c, t, sc⟩ := by
            cases r
            simp_all
          refine ⟨updateFirst (summaryKeyMatch p (dateOnly dt))
            (fun _ => ⟨p, dt, c, t, sc⟩) table, ?_, ?_⟩
          · unfold create_or_update_summary
            rw [hf, ← hrec]
          · exact filter_updateFirst hnew table r hf
      | cons r2 rest2 =>
          rw [hf] at h
          simp at h

/-- One aggregation per (person, day) on a fixed key, and the exact
recomputed row it leaves behind. -/
theorem aggregate_run (ledger : Ledger) (table : List ActivitySummary)
    (p d : ℕ) (h : keyCount table p d ≤ 1) :
    ∃ table₂,
      aggregate_daily_activities ledger table p d =
        .ok (table₂, ⟨p, d * microsecondsPerDay,
          conversationsCountCode ledger p d, tasksCountCode ledger p d,
          conversationsCountCode ledger p d + tasksCountCode ledger p d * 2⟩) ∧
      table₂.filter (summaryKeyMatch p d) =
        [(⟨p, d * microsecondsPerDay,
          conversationsCountCode ledger p d, tasksCountCode ledger p d,
          conversationsCountCode ledger p d + tasksCountCode ledger p d * 2⟩ : ActivitySummary)] := by
  have hday : dateOnly (d * microsecondsPerDay) = d := by
    unfold dateOnly microsecondsPerDay
    omega
  have h2 : keyCount table p (dateOnly (d * microsecondsPerDay)) ≤ 1 := by rw [hday]; exact h
  obtain ⟨table₂, hok, hfil⟩ := create_or_update_summary_ok table p
    (d * microsecondsPerDay) (conversationsCountCode ledger p d)
    (tasksCountCode ledger p d)
    (conversationsCountCode ledger p d + tasksCountCode ledger p d * 2) h2
  rw [hday] at hfil
  exact ⟨table₂, hok, hfil⟩

/-- Iterated aggregation runs for a fixed (person, day). -/
def iterAgg (ledger : Ledger) (person_id target_date : ℕ) :
    ℕ → List ActivitySummary → Except String (List ActivitySummary)
  | 0, table => .ok table
  | n + 1, table =>
      match aggregate_daily_activities ledger table person_id target_date with
      | .ok (table₂, _) => iterAgg ledger person_id target_date n table₂
      | .error e => .error e

/-- **C2.** Aggregation is idempotent and the summary table keeps exactly one
row per (person, day): starting from a table with at most one row for the
key, running `aggregate_daily_activities` twice with the same ledger yields
identical summary values, and after any positive number of runs the table
holds exactly one `(P, D)` row, fully recomputed from the ledger. -/
theorem aggregate_idempotent_one_row (ledger : Ledger) (table : List ActivitySummary)
    (p d : ℕ) (h : keyCount table p d ≤ 1) :
    (∃ t₁ s₁ t₂ s₂,
        aggregate_daily_activities ledger table p d = .ok (t₁, s₁) ∧
        aggregate_daily_activities ledger t₁ p d = .ok (t₂, s₂) ∧ s₁ = s₂) ∧
    (∀ n, 1 ≤ n → ∃ tbl, iterAgg ledger p d n table = .ok tbl ∧
        tbl.filter (summaryKeyMatch p d) =
          [(⟨p, d * microsecondsPerDay,
            conversationsCountCode ledger p d, tasksCountCode ledger p d,
            conversationsCountCode ledger p d + tasksCountCode ledger p d * 2⟩ :
              ActivitySummary)]) := by
  obtain ⟨t₁, hok₁, hfil₁⟩ := aggregate_run ledger table p d h
  have hcnt₁ : keyCount t₁ p d ≤ 1 := by
    unfold keyCount
    rw [List.countP_eq_length_filter, hfil₁]
    simp
  obtain ⟨t₂, hok₂, hfil₂⟩ := aggregate_run ledger t₁ p d hcnt₁
  constructor
  · exact ⟨t₁, _, t₂, _, hok₁, hok₂, rfl⟩
  · -- invariant preserved by each further run
    have step : ∀ (tbl : List ActivitySummary),
        tbl.filter (summaryKeyMatch p d) =
          [(⟨p, d * microsecondsPerDay,
            conversationsCountCode ledger p d, tasksCountCode ledger p d,
            conversationsCountCode ledger p d + tasksCountCode ledger p d * 2⟩ :
              ActivitySummary)] →
        ∀ n, ∃ tbl₂, iterAgg ledger p d n tbl = .ok tbl₂ ∧
          tbl₂.filter (summaryKeyMatch p d) =
            [(⟨p, d * microsecondsPerDay,
              conversationsCountCode ledger p d, tasksCountCode ledger p d,
              conversationsCountCode ledger p d + tasksCountCode ledger p d * 2⟩ :
                ActivitySummary)] := by
      intro tbl htbl n
      induction n generalizing tbl with
      | zero => exact ⟨tbl, rfl, htbl⟩
      | succ m ih =>
          have hcnt : keyCount tbl p d ≤ 1 := by
            unfold keyCount
            rw [List.countP_eq_length_filter, htbl]
            simp
          obtain ⟨tblx, hokx, hfilx⟩ := aggregate_run ledger tbl p d hcnt
          obtain ⟨tbl₂, hit, hfin⟩ := ih tblx hfilx
          refine ⟨tbl₂, ?_, hfin⟩
          unfold iterAgg
          rw [hokx]
          exact hit
    intro n hn
    obtain ⟨m, rfl⟩ : ∃ m, n = m + 1 := ⟨n - 1, by omega⟩
    obtain ⟨tbl₂, hit, hfin⟩ := step t₁ hfil₁ m
    refine ⟨tbl₂, ?_, hfin⟩
    unfold iterAgg
    rw [hok₁]
    exact hit

/-- Witness for C2 at a concrete ledger and empty table. -/
theorem aggregate_idempotent_one_row_witness :
    keyCount [] 1 3 ≤ 1 ∧
    ((∃ t₁ s₁ t₂ s₂,
        aggregate_daily_activities
          ⟨[⟨1, "c1", 3 * microsecondsPerDay⟩], [⟨1, "t1", none, none,
            3 * microsecondsPerDay + 7, none, none, 0⟩]⟩ [] 1 3 = .ok (t₁, s₁) ∧
        aggregate_daily_activities
          ⟨[⟨1, "c1", 3 * microsecondsPerDay⟩], [⟨1, "t1", none, none,
            3 * microsecondsPerDay + 7, none, none, 0⟩]⟩ t₁ 1 3 = .ok (t₂, s₂) ∧ s₁ = s₂) ∧
      (∀ n, 1 ≤ n → ∃ tbl, iterAgg
          ⟨[⟨1, "c1", 3 * microsecondsPerDay⟩], [⟨1, "t1", none, none,
            3 * microsecondsPerDay + 7, none, none, 0⟩]⟩ 1 3 n [] = .ok tbl ∧
          tbl.filter (summaryKeyMatch 1 3) =
            [(⟨1, 3 * microsecondsPerDay,
              conversationsCountCode ⟨[⟨1, "c1", 3 * microsecondsPerDay⟩],
                [⟨1, "t1", none, none, 3 * microsecondsPerDay + 7, none, none, 0⟩]⟩ 1 3,
              tasksCountCode ⟨[⟨1, "c1", 3 * microsecondsPerDay⟩],
                [⟨1, "t1", none, none, 3 * microsecondsPerDay + 7, none, none, 0⟩]⟩ 1 3,
              conversationsCountCode ⟨[⟨1, "c1", 3 * microsecondsPerDay⟩],
                [⟨1, "t1", none, none, 3 * microsecondsPerDay + 7, none, none, 0⟩]⟩ 1 3 +
              tasksCountCode ⟨[⟨1, "c1", 3 * microsecondsPerDay⟩],
                [⟨1, "t1", none, none, 3 * microsecondsPerDay + 7, none, none, 0⟩]⟩ 1 3 * 2⟩ :
                ActivitySummary)])) :=
  ⟨by decide, aggregate_idempotent_one_row _ [] 1 3 (by decide)⟩

end ActivityRepo

namespace Streak

/-- Output shape of `ActivityRepository.calculate_streak`. -/
structure StreakResult where
  current_streak : ℕ
  longest_streak : ℕ
  current_streak_start : Option ℤ
  longest_streak_start : Option ℤ
  longest_streak_end : Option ℤ
  deriving DecidableEq, Repr

/-- Loop state of the forward walk in `calculate_streak`. -/
structure FwdState where
  longest : ℕ
  longest_start : Option ℤ
  longest_end : Option ℤ
  temp : ℕ
  temp_start : ℤ
  deriving DecidableEq, Repr

/-- The `for i in range(1, len(activity_dates))` walk: a gap of exactly one
day extends `temp_streak`; any other gap first promotes `temp_streak` to the
longest streak when strictly greater, then restarts at the current day.
Returns the final state together with the last date seen (`dates[-1]`). -/
def fwdLoop (prev : ℤ) (st : FwdState) : List ℤ → FwdState × ℤ
  | [] => (st, prev)
  | curr :: rest =>
      if curr - prev = 1 then fwdLoop curr { st with temp := st.temp + 1 } rest
      else if st.temp > st.longest then
        fwdLoop curr ⟨st.temp, some st.temp_start, some prev, 1, curr⟩ rest
      else
        fwdLoop curr { st with temp := 1, temp_start := curr } rest

/-- The final check after the walk: promote the trailing `temp_streak`. -/
def finishFwd (st : FwdState) (lastDate : ℤ) : ℕ × Option ℤ × Option ℤ :=
  if st.temp > st.longest then (st.temp, some st.temp_start, some lastDate)
  else (st.longest, st.longest_start, st.longest_end)

/-- The `for i in range(len(activity_dates) - 2, -1, -1)` backward walk,
expressed on the reversed remainder of the date list. -/
def backLoop (next : ℤ) (current : ℕ) (current_start : ℤ) : List ℤ → ℕ × ℤ
  | [] => (current, current_start)
  | d :: rest =>
      if next - d = 1 then backLoop d (current + 1) d rest
      else (current, current_start)

/-- The forward walk followed by the final promotion check: the
(longest_streak, longest_streak_start, longest_streak_end) triple computed
by `calculate_streak` before the current-streak section. -/
def forwardResult (d0 : ℤ) (rest : List ℤ) : ℕ × Option ℤ × Option ℤ :=
  finishFwd (fwdLoop d0 ⟨0, none, none, 1, d0⟩ rest).1
    (fwdLoop d0 ⟨0, none, none, 1, d0⟩ rest).2

/-- `ActivityRepository.calculate_streak`, over the ascending list of days
(score > 0) returned by the summary query, as day numbers.  The backward
walk over indices `n-2 .. 0` is expressed on the reversed list; the
`[] => ...` reverse branch is unreachable for a nonempty list. -/
def calculate_streak (dates : List ℤ) (today : ℤ) : StreakResult :=
  match dates with
  | [] => ⟨0, 0, none, none, none⟩
  | d0 :: rest =>
      match (d0 :: rest).reverse with
      | [] =>
          ⟨0, (forwardResult d0 rest).1, none,
            (forwardResult d0 rest).2.1, (forwardResult d0 rest).2.2⟩
      | lastDate :: revRest =>
          if today - lastDate ≤ 1 then
            ⟨(backLoop lastDate 1 lastDate revRest).1, (forwardResult d0 rest).1,
              some (backLoop lastDate 1 lastDate revRest).2,
              (forwardResult d0 rest).2.1, (forwardResult d0 rest).2.2⟩
          else
            ⟨0, (forwardResult d0 rest).1, none,
              (forwardResult d0 rest).2.1, (forwardResult d0 rest).2.2⟩

/-- Claim-side decomposition of the ascending day list into runs of
consecutive days, each reported as (length, start, end): a gap of exactly
one day extends the current run, any other gap starts a new run of length 1
at the current day. -/
def specRuns (a : ℤ) : List ℤ → List (ℕ × ℤ × ℤ)
  | [] => [(1, a, a)]
  | b :: rest =>
      if b - a = 1 then
        match specRuns b rest with
        | (n, _, l) :: rs => (n + 1, a, l) :: rs
        | [] => [(1, a, a)]
      else (1, a, a) :: specRuns b rest

/-- The length of the longest run. -/
def maxRunLen (runs : List (ℕ × ℤ × ℤ)) : ℕ := runs.foldr (fun t m => max t.1 m) 0

/-- Claim-side trailing run: walk backward from the most recent day while
consecutive, counting length and earliest date (input: reversed remainder). -/
def trailingRun (a : ℤ) : List ℤ → ℕ × ℤ
  | [] => (1, a)
  | b :: rest =>
      if a - b = 1 then ((trailingRun b rest).1 + 1, (trailingRun b rest).2)
      else (1, a)

/-- First-maximum selection over runs, matching the strict-greater updates of
the forward walk. -/
def bestRun (b : ℕ × Option ℤ × Option ℤ) : List (ℕ × ℤ × ℤ) → ℕ × Option ℤ × Option ℤ
  | [] => b
  | (n, h, l) :: rs => if n > b.1 then bestRun (n, some h, some l) rs else bestRun b rs

/-- Graft `k` extra leading days starting at `s` onto the first run. -/
def joinFirst (k : ℕ) (s : ℤ) : List (ℕ × ℤ × ℤ) → List (ℕ × ℤ × ℤ)
  | [] => []
  | (n, _, l) :: rs => (n + k, s, l) :: rs

theorem fwdLoop_nil (prev : ℤ) (st : FwdState) : fwdLoop prev st [] = (st, prev) := rfl

theorem fwdLoop_cons (prev : ℤ) (st : FwdState) (curr : ℤ) (rest : List ℤ) :
    fwdLoop prev st (curr :: rest) =
      if curr - prev = 1 then fwdLoop curr { st with temp := st.temp + 1 } rest
      else if st.temp > st.longest then
        fwdLoop curr ⟨st.temp, some st.temp_start, some prev, 1, curr⟩ rest
      else fwdLoop curr { st with temp := 1, temp_start := curr } rest := rfl

theorem backLoop_cons (next : ℤ) (cur : ℕ) (cs d : ℤ) (rest : List ℤ) :
    backLoop next cur cs (d :: rest) =
      if next - d = 1 then backLoop d (cur + 1) d rest else (cur, cs) := rfl

theorem trailingRun_cons (a b : ℤ) (rest : List ℤ) :
    trailingRun a (b :: rest) =
      if a - b = 1 then ((trailingRun b rest).1 + 1, (trailingRun b rest).2)
      else (1, a) := rfl

theorem bestRun_cons (b : ℕ × Option ℤ × Option ℤ) (n : ℕ) (h l : ℤ)
    (rs : List (ℕ × ℤ × ℤ)) :
    bestRun b ((n, h, l) :: rs) =
      if n > b.1 then bestRun (n, some h, some l) rs else bestRun b rs := rfl

theorem specRuns_head : ∀ (rest : List ℤ) (a : ℤ),
    ∃ n l rs, specRuns a rest = (n, a, l) :: rs ∧ 1 ≤ n := by
  intro rest
  induction rest with
  | nil => intro a; exact ⟨1, a, [], rfl, le_refl 1⟩
  | cons b rest ih =>
      intro a
      obtain ⟨n, l, rs, hb, hn⟩ := ih b
      by_cases hgap : b - a = 1
      · refine ⟨n + 1, l, rs, ?_, by omega⟩
        show (if b - a = 1 then _ else _) = _
        rw [if_pos hgap, hb]
      · refine ⟨1, a, specRuns b rest, ?_, le_refl 1⟩
        show (if b - a = 1 then _ else _) = _
        rw [if_neg hgap]

theorem specRuns_cons_one {a b : ℤ} (rest : List ℤ) (hgap : b - a = 1) :
    specRuns a (b :: rest) = joinFirst 1 a (specRuns b rest) := by
  obtain ⟨n, l, rs, hb, -⟩ := specRuns_head rest b
  show (if b - a = 1 then _ else _) = _
  rw [if_pos hgap, hb]
  rfl

theorem specRuns_cons_ne {a b : ℤ} (rest : List ℤ) (hgap : ¬b - a = 1) :
    specRuns a (b :: rest) = (1, a, a) :: specRuns b rest := by
  show (if b - a = 1 then _ else _) = _
  rw [if_neg hgap]

theorem joinFirst_zero (a : ℤ) (rest : List ℤ) :
    joinFirst 0 a (specRuns a rest) = specRuns a rest := by
  obtain ⟨n, l, rs, hb, -⟩ := specRuns_head rest a
  rw [hb]
  show (n + 0, a, l) :: rs = _
  simp

theorem joinFirst_one (k : ℕ) (s a b : ℤ) (rest : List ℤ) :
    joinFirst k s (joinFirst 1 a (specRuns b rest)) =
      joinFirst (k + 1) s (specRuns b rest) := by
  obtain ⟨n, l, rs, hb, -⟩ := specRuns_head rest b
  rw [hb]
  show (n + 1 + k, s, l) :: rs = (n + (k + 1), s, l) :: rs
  have : n + 1 + k = n + (k + 1) := by omega
  rw [this]

theorem fwdLoop_best : ∀ (rest : List ℤ) (prev : ℤ) (b1 : ℕ)
    (bs be : Option ℤ) (k : ℕ) (s : ℤ), 1 ≤ k →
    finishFwd (fwdLoop prev ⟨b1, bs, be, k, s⟩ rest).1
        (fwdLoop prev ⟨b1, bs, be, k, s⟩ rest).2 =
      bestRun (b1, bs, be) (joinFirst (k - 1) s (specRuns prev rest)) := by
  intro rest
  induction rest with
  | nil =>
      intro prev b1 bs be k s hk
      rw [fwdLoop_nil]
      show finishFwd ⟨b1, bs, be, k, s⟩ prev = _
      show _ = bestRun (b1, bs, be) (joinFirst (k - 1) s [(1, prev, prev)])
      have hkk : 1 + (k - 1) = k := by omega
      show _ = bestRun (b1, bs, be) [(1 + (k - 1), s, prev)]
      rw [hkk, bestRun_cons]
      unfold finishFwd
      by_cases hb : k > b1
      · rw [if_pos hb, if_pos hb]; rfl
      · rw [if_neg hb, if_neg hb]; rfl
  | cons curr rest2 ih =>
      intro prev b1 bs be k s hk
      rw [fwdLoop_cons]
      by_cases hgap : curr - prev = 1
      · rw [if_pos hgap]
        show finishFwd (fwdLoop curr ⟨b1, bs, be, k + 1, s⟩ rest2).1
            (fwdLoop curr ⟨b1, bs, be, k + 1, s⟩ rest2).2 = _
        rw [ih curr b1 bs be (k + 1) s (by omega)]
        rw [specRuns_cons_one rest2 hgap, joinFirst_one]
        have h1 : k + 1 - 1 = k := by omega
        have h2 : k - 1 + 1 = k := by omega
        rw [h1, h2]
      · rw [if_neg hgap, specRuns_cons_ne rest2 hgap]
        dsimp only
        have hkk : 1 + (k - 1) = k := by omega
        rw [show joinFirst (k - 1) s ((1, prev, prev) :: specRuns curr rest2) =
              (k, s, prev) :: specRuns curr rest2 by
            show (1 + (k - 1), s, prev) :: _ = _
            rw [hkk]]
        rw [bestRun_cons]
        dsimp only
        by_cases hbest : k > b1
        · rw [if_pos hbest, if_pos hbest]
          have := ih curr k (some s) (some prev) 1 curr (le_refl 1)
          simp only [Nat.sub_self] at this
          rw [this, joinFirst_zero]
        · rw [if_neg hbest, if_neg hbest]
          have := ih curr b1 bs be 1 curr (le_refl 1)
          simp only [Nat.sub_self] at this
          rw [this, joinFirst_zero]

theorem maxRunLen_cons (n : ℕ) (h l : ℤ) (rs : List (ℕ × ℤ × ℤ)) :
    maxRunLen ((n, h, l) :: rs) = max n (maxRunLen rs) := rfl

theorem bestRun_fst : ∀ (rs : List (ℕ × ℤ × ℤ)) (b : ℕ × Option ℤ × Option ℤ),
    (bestRun b rs).1 = max b.1 (maxRunLen rs) := by
  intro rs
  induction rs with
  | nil => intro b; show b.1 = max b.1 0; omega
  | cons t rs ih =>
      intro b
      obtain ⟨n, h, l⟩ := t
      rw [bestRun_cons, maxRunLen_cons]
      by_cases hn : n > b.1
      · rw [if_pos hn, ih]
        show max n (maxRunLen rs) = _
        omega
      · rw [if_neg hn, ih]
        omega

theorem bestRun_mem : ∀ (rs : List (ℕ × ℤ × ℤ)) (b : ℕ × Option ℤ × Option ℤ),
    bestRun b rs = b ∨ ∃ t ∈ rs, bestRun b rs = (t.1, some t.2.1, some t.2.2) := by
  intro rs
  induction rs with
  | nil => intro b; left; rfl
  | cons t rs ih =>
      intro b
      obtain ⟨n, h, l⟩ := t
      rw [bestRun_cons]
      by_cases hn : n > b.1
      · rw [if_pos hn]
        rcases ih (n, some h, some l) with h1 | ⟨t2, ht2, h2⟩
        · right; exact ⟨(n, h, l), List.mem_cons_self _ _, h1⟩
        · right; exact ⟨t2, List.mem_cons_of_mem _ ht2, h2⟩
      · rw [if_neg hn]
        rcases ih b with h1 | ⟨t2, ht2, h2⟩
        · left; exact h1
        · right; exact ⟨t2, List.mem_cons_of_mem _ ht2, h2⟩

theorem backLoop_add : ∀ (rest : List ℤ) (a c : ℤ) (k j : ℕ),
    backLoop a (k + j) c rest = ((backLoop a k c rest).1 + j, (backLoop a k c rest).2) := by
  intro rest
  induction rest with
  | nil => intro a c k j; rfl
  | cons d rest ih =>
      intro a c k j
      rw [backLoop_cons, backLoop_cons]
      by_cases hgap : a - d = 1
      · rw [if_pos hgap, if_pos hgap]
        have : k + j + 1 = (k + 1) + j := by omega
        rw [this, ih]
      · rw [if_neg hgap, if_neg hgap]

theorem backLoop_one : ∀ (rest : List ℤ) (a : ℤ),
    backLoop a 1 a rest = trailingRun a rest := by
  intro rest
  induction rest with
  | nil => intro a; rfl
  | cons d rest ih =>
      intro a
      rw [backLoop_cons, trailingRun_cons]
      by_cases hgap : a - d = 1
      · rw [if_pos hgap, if_pos hgap, show (1 + 1 : ℕ) = 1 + 1 from rfl, backLoop_add, ih]
      · rw [if_neg hgap, if_neg hgap]

theorem maxRunLen_pos (a : ℤ) (rest : List ℤ) : 1 ≤ maxRunLen (specRuns a rest) := by
  obtain ⟨n, l, rs, hb, hn⟩ := specRuns_head rest a
  rw [hb, maxRunLen_cons]
  omega

theorem calculate_streak_eq (d0 : ℤ) (rest : List ℤ) (today lastD : ℤ)
    (revRest : List ℤ) (hrev : (d0 :: rest).reverse = lastD :: revRest) :
    calculate_streak (d0 :: rest) today =
      if today - lastD ≤ 1 then
        ⟨(backLoop lastD 1 lastD revRest).1, (forwardResult d0 rest).1,
          some (backLoop lastD 1 lastD revRest).2,
          (forwardResult d0 rest).2.1, (forwardResult d0 rest).2.2⟩
      else
        ⟨0, (forwardResult d0 rest).1, none,
          (forwardResult d0 rest).2.1, (forwardResult d0 rest).2.2⟩ := by
  simp only [calculate_streak]
  rw [hrev]

theorem forwardResult_best (d0 : ℤ) (rest : List ℤ) :
    forwardResult d0 rest = bestRun (0, none, none) (specRuns d0 rest) := by
  unfold forwardResult
  rw [fwdLoop_best rest d0 0 none none 1 d0 (le_refl 1)]
  simp only [Nat.sub_self]
  rw [joinFirst_zero]

/-- **C3 (amended).** For every ascending day list: with no active days all
outputs are zero/null; otherwise `longest_streak` is the length of the
longest run of consecutive days (gap of exactly 1 extends a run, any other
gap starts a new run of length 1), reported with a run of that length and
its start and end days; and the current streak is non-zero exactly when
`today - most_recent ≤ 1` — i.e. the most recent active day is today,
yesterday, or any future day (the claim said only today or yesterday) — in
which case it is the length of the trailing consecutive run walked backward
from the most recent day, with its earliest day. -/
theorem calculate_streak_spec :
    (∀ today : ℤ, calculate_streak [] today = ⟨0, 0, none, none, none⟩) ∧
    ∀ (d0 : ℤ) (rest : List ℤ) (today : ℤ),
      (calculate_streak (d0 :: rest) today).longest_streak =
          maxRunLen (specRuns d0 rest) ∧
      (∃ t ∈ specRuns d0 rest,
        t.1 = (calculate_streak (d0 :: rest) today).longest_streak ∧
        (calculate_streak (d0 :: rest) today).longest_streak_start = some t.2.1 ∧
        (calculate_streak (d0 :: rest) today).longest_streak_end = some t.2.2) ∧
      (if today - (d0 :: rest).reverse.headD 0 ≤ 1 then
        (calculate_streak (d0 :: rest) today).current_streak =
            (trailingRun ((d0 :: rest).reverse.headD 0) ((d0 :: rest).reverse.tail)).1 ∧
          (calculate_streak (d0 :: rest) today).current_streak_start =
            some (trailingRun ((d0 :: rest).reverse.headD 0) ((d0 :: rest).reverse.tail)).2
      else
        (calculate_streak (d0 :: rest) today).current_streak = 0 ∧
          (calculate_streak (d0 :: rest) today).current_streak_start = none) := by
  constructor
  · intro today; rfl
  intro d0 rest today
  obtain ⟨lastD, revRest, hrev⟩ :
      ∃ x xs, (d0 :: rest).reverse = x :: xs :=
    List.exists_cons_of_ne_nil (by simp)
  have hhead : (d0 :: rest).reverse.headD 0 = lastD := by rw [hrev]; rfl
  have htail : (d0 :: rest).reverse.tail = revRest := by rw [hrev]; rfl
  have heq := calculate_streak_eq d0 rest today lastD revRest hrev
  have hlongest :
      (calculate_streak (d0 :: rest) today).longest_streak =
        (forwardResult d0 rest).1 ∧
      (calculate_streak (d0 :: rest) today).longest_streak_start =
        (forwardResult d0 rest).2.1 ∧
      (calculate_streak (d0 :: rest) today).longest_streak_end =
        (forwardResult d0 rest).2.2 := by
    rw [heq]
    by_cases hcur : today - lastD ≤ 1
    · rw [if_pos hcur]; exact ⟨rfl, rfl, rfl⟩
    · rw [if_neg hcur]; exact ⟨rfl, rfl, rfl⟩
  have hmax1 := maxRunLen_pos d0 rest
  have hbfst := bestRun_fst (specRuns d0 rest) (0, none, none)
  have hfst : (bestRun (0, none, none) (specRuns d0 rest)).1 =
      maxRunLen (specRuns d0 rest) := by
    rw [hbfst]; omega
  refine ⟨?_, ?_, ?_⟩
  · rw [hlongest.1, forwardResult_best, hfst]
  · rcases bestRun_mem (specRuns d0 rest) (0, none, none) with hb | ⟨t, htmem, htv⟩
    · exfalso
      have : (bestRun (0, none, none) (specRuns d0 rest)).1 = 0 := by rw [hb]
      omega
    · refine ⟨t, htmem, ?_, ?_, ?_⟩
      · rw [hlongest.1, forwardResult_best, htv]
      · rw [hlongest.2.1, forwardResult_best, htv]
      · rw [hlongest.2.2, forwardResult_best, htv]
  · rw [hhead, htail, heq]
    by_cases hcur : today - lastD ≤ 1
    · rw [if_pos hcur, if_pos hcur]
      rw [backLoop_one]
      exact ⟨rfl, rfl⟩
    · rw [if_neg hcur, if_neg hcur]
      exact ⟨rfl, rfl⟩

/-- **C3 counterexample.** With a single active day 5 and `today = 0`, the
code returns a non-zero current streak (since `today - last = -5 <= 1`)
although the most recent active day is neither today nor yesterday, refuting
the claim as stated. -/
theorem calculate_streak_current_counterexample :
    (calculate_streak [(5 : ℤ)] 0).current_streak ≠ 0 ∧
      ¬((5 : ℤ) = 0 ∨ (5 : ℤ) = 0 - 1) := by
  decide

end Streak

namespace StatsService

/-- A summary row as read by `get_heatmap`: the calendar day
(`s.date.date()`) and the total activity score. -/
structure HSummary where
  date : ℤ
  total_activity_score : ℕ
  deriving DecidableEq, Repr

/-- A point of the heatmap. -/
structure HeatmapData where
  date : ℤ
  count : ℕ
  level : ℕ
  deriving DecidableEq, Repr

/-- The fields of `HeatmapResponse` relevant to the claims. -/
structure HeatmapResponse where
  start_date : ℤ
  end_date : ℤ
  total_days : ℕ
  active_days : ℕ
  max_activity : ℕ
  data : List HeatmapData
  deriving DecidableEq, Repr

/-- Insertion into a Python dict built by a comprehension: a later entry for
an existing key overwrites it in place, a new key is appended. -/
def dictInsert (m : List (ℤ × ℕ)) (k : ℤ) (v : ℕ) : List (ℤ × ℕ) :=
  if m.any (fun p => decide (p.1 = k)) then
    m.map (fun p => if p.1 = k then (k, v) else p)
  else m ++ [(k, v)]

/-- The `activity_map` dict comprehension of `get_heatmap`:
date -> total_activity_score. -/
def activityMap (summaries : List HSummary) : List (ℤ × ℕ) :=
  summaries.foldl (fun m s => dictInsert m s.date s.total_activity_score) []

/-- `activity_map.get(current_date, 0)`. -/
def dictGet (m : List (ℤ × ℕ)) (k : ℤ) : ℕ :=
  match m.find? (fun p => decide (p.1 = k)) with
  | some p => p.2
  | none => 0

/-- `max(activity_map.values()) if activity_map else 1`. -/
def maxActivity (m : List (ℤ × ℕ)) : ℕ :=
  match m with
  | [] => 1
  | p :: ps => ps.foldl (fun a q => max a q.2) p.2

/-- The level chain of `get_heatmap`.  The Python comparisons
`count >= max * 0.75`, `>= max * 0.5`, `>= max * 0.25` are exact rational
comparisons (0.25/0.5/0.75 are dyadic, `max * 0.75 = 3 * max / 4` is an
exact float for all realistic magnitudes), so they are embedded as the
equivalent integer comparisons `4 * count >= 3 * max` etc. -/
def heatLevel (count maxA : ℕ) : ℕ :=
  if count = 0 then 0
  else if 4 * count ≥ 3 * maxA then 4
  else if 2 * count ≥ maxA then 3
  else if 4 * count ≥ maxA then 2
  else 1

/-- The `while current_date <= end_date` day enumeration. -/
def whileDays (cur endD : ℤ) : List ℤ :=
  if cur ≤ endD then cur :: whileDays (cur + 1) endD else []
termination_by (endD + 1 - cur).toNat
decreasing_by
  simp_wf
  omega

/-- `start_date = end_date - timedelta(days=days - 1)`. -/
def heatStart (today : ℤ) (days : ℕ) : ℤ := today - ((days : ℤ) - 1)

/-- The loop body of `get_heatmap`: build the data points in order and count
the active days along the way. -/
def heatFold (m : List (ℤ × ℕ)) (maxA : ℕ) (dayList : List ℤ) :
    List HeatmapData × ℕ :=
  dayList.foldl (fun acc d =>
    (acc.1 ++ [⟨d, dictGet m d, heatLevel (dictGet m d) maxA⟩],
     if dictGet m d > 0 then acc.2 + 1 else acc.2)) ([], 0)

/-- `ActivityStatsService.get_heatmap` for a person, given the summary rows
the repository returns for the window ending today. -/
def get_heatmap (summaries : List HSummary) (today : ℤ) (days : ℕ) :
    HeatmapResponse :=
  ⟨heatStart today days, today, days,
    (heatFold (activityMap summaries) (maxActivity (activityMap summaries))
      (whileDays (heatStart today days) today)).2,
    maxActivity (activityMap summaries),
    (heatFold (activityMap summaries) (maxActivity (activityMap summaries))
      (whileDays (heatStart today days) today)).1⟩

/-- Claim-side maximum daily score observed in the window (0 when there is
none): the maximum over the per-day scores the heatmap reads. -/
def maxObserved (summaries : List HSummary) : ℕ :=
  (activityMap summaries).foldl (fun a q => max a q.2) 0

/-- Claim-side level table: level 0 iff count = 0; level 1 iff
0 < count < 0.25 max; level 2 iff 0.25 max <= count < 0.5 max; level 3 iff
0.5 max <= count < 0.75 max; level 4 iff count >= 0.75 max. -/
def claimLevel (count m : ℕ) : ℕ :=
  if count = 0 then 0
  else if 4 * count < m then 1
  else if 2 * count < m then 2
  else if 4 * count < 3 * m then 3
  else 4

theorem heatLevel_eq_claimLevel (c M : ℕ) : heatLevel c M = claimLevel c M := by
  unfold heatLevel claimLevel
  split_ifs <;> omega

theorem heatFold_go (m : List (ℤ × ℕ)) (maxA : ℕ) :
    ∀ (l : List ℤ) (acc : List HeatmapData) (n : ℕ),
      l.foldl (fun acc d =>
        (acc.1 ++ [⟨d, dictGet m d, heatLevel (dictGet m d) maxA⟩],
         if dictGet m d > 0 then acc.2 + 1 else acc.2)) (acc, n) =
      (acc ++ l.map (fun d => ⟨d, dictGet m d, heatLevel (dictGet m d) maxA⟩),
       n + l.countP (fun d => decide (dictGet m d > 0))) := by
  intro l
  induction l with
  | nil => intro acc n; simp
  | cons d l ih =>
      intro acc n
      rw [List.foldl_cons, ih, List.map_cons, List.countP_cons]
      refine Prod.ext ?_ ?_
      · simp
      · show (if dictGet m d > 0 then n + 1 else n) + _ = _
        by_cases hd : dictGet m d > 0
        · rw [if_pos hd, if_pos (decide_eq_true_eq.mpr hd)]
          omega
        · rw [if_neg hd, if_neg (by simp [hd])]
          omega

theorem heatFold_spec (m : List (ℤ × ℕ)) (maxA : ℕ) (dayList : List ℤ) :
    heatFold m maxA dayList =
      (dayList.map (fun d => ⟨d, dictGet m d, heatLevel (dictGet m d) maxA⟩),
       dayList.countP (fun d => decide (dictGet m d > 0))) := by
  unfold heatFold
  rw [heatFold_go]
  simp

theorem dictInsert_mem {m : List (ℤ × ℕ)} {k : ℤ} {v : ℕ} {p : ℤ × ℕ}
    (h : p ∈ dictInsert m k v) : p ∈ m ∨ p.1 = k := by
  unfold dictInsert at h
  by_cases ha : m.any (fun p => decide (p.1 = k)) = true
  · rw [if_pos ha] at h
    obtain ⟨q, hq, hpq⟩ := List.mem_map.mp h
    by_cases hk : q.1 = k
    · right
      rw [if_pos hk] at hpq
      rw [← hpq]
    · left
      rw [if_neg hk] at hpq
      rw [← hpq]
      exact hq
  · rw [if_neg ha] at h
    rcases List.mem_append.mp h with h1 | h1
    · left; exact h1
    · right
      have : p = (k, v) := List.mem_singleton.mp h1
      rw [this]

theorem activityMap_keys :
    ∀ (l : List HSummary) (m : List (ℤ × ℕ)) (p : ℤ × ℕ),
      p ∈ l.foldl (fun m s => dictInsert m s.date s.total_activity_score) m →
      p ∈ m ∨ ∃ s ∈ l, s.date = p.1 := by
  intro l
  induction l with
  | nil => intro m p h; left; exact h
  | cons s l ih =>
      intro m p h
      rw [List.foldl_cons] at h
      rcases ih _ p h with h1 | ⟨s2, hs2, hd⟩
      · rcases dictInsert_mem h1 with h2 | h2
        · left; exact h2
        · right; exact ⟨s, List.mem_cons_self _ _, h2.symm⟩
      · right; exact ⟨s2, List.mem_cons_of_mem _ hs2, hd⟩

theorem dictGet_cases (m : List (ℤ × ℕ)) (k : ℤ) :
    dictGet m k = 0 ∨ ∃ p ∈ m, p.1 = k ∧ p.2 = dictGet m k := by
  unfold dictGet
  cases hf : m.find? (fun p => decide (p.1 = k)) with
  | none => left; rfl
  | some p =>
      right
      refine ⟨p, List.mem_of_find?_eq_some hf, ?_, rfl⟩
      have := List.find?_some hf
      simpa using this

theorem dictGet_of_no_key (m : List (ℤ × ℕ)) (k : ℤ)
    (h : ∀ p ∈ m, p.1 ≠ k) : dictGet m k = 0 := by
  rcases dictGet_cases m k with h0 | ⟨p, hp, hk, -⟩
  · exact h0
  · exact absurd hk (h p hp)

theorem foldl_max_le_general :
    ∀ (l : List (ℤ × ℕ)) (a : ℕ) (p : ℤ × ℕ), p ∈ l →
      p.2 ≤ l.foldl (fun a q => max a q.2) a := by
  intro l
  induction l with
  | nil => intro a p h; cases h
  | cons q l ih =>
      intro a p h
      rw [List.foldl_cons]
      rcases List.mem_cons.mp h with h1 | h1
      · subst h1
        have : ∀ (l2 : List (ℤ × ℕ)) (b c : ℕ), b ≤ c →
            b ≤ l2.foldl (fun a q => max a q.2) c := by
          intro l2
          induction l2 with
          | nil => intro b c hbc; exact hbc
          | cons r l2 ih2 =>
              intro b c hbc
              rw [List.foldl_cons]
              exact ih2 b _ (by omega)
        exact this l _ _ (by omega)
      · exact ih _ p h1

theorem maxActivity_eq_maxObserved (summaries : List HSummary)
    (hne : activityMap summaries ≠ []) :
    maxActivity (activityMap summaries) = maxObserved summaries := by
  unfold maxActivity maxObserved
  cases hm : activityMap summaries with
  | nil => exact absurd hm hne
  | cons p ps =>
      rw [List.foldl_cons]
      have : max 0 p.2 = p.2 := by omega
      rw [this]

/-- **C4.** Every returned heatmap point's level equals the claimed level
table evaluated at its count and at the maximum daily score observed in the
window floored at 1. -/
theorem get_heatmap_levels (summaries : List HSummary) (today : ℤ) (days : ℕ)
    (pt : HeatmapData) (hpt : pt ∈ (get_heatmap summaries today days).data) :
    pt.level = claimLevel pt.count (max 1 (maxObserved summaries)) := by
  have hdata : (get_heatmap summaries today days).data =
      (whileDays (heatStart today days) today).map
        (fun d => ⟨d, dictGet (activityMap summaries) d,
          heatLevel (dictGet (activityMap summaries) d)
            (maxActivity (activityMap summaries))⟩) := by
    show (heatFold _ _ _).1 = _
    rw [heatFold_spec]
  rw [hdata] at hpt
  obtain ⟨d, -, hptv⟩ := List.mem_map.mp hpt
  subst hptv
  show heatLevel (dictGet (activityMap summaries) d)
      (maxActivity (activityMap summaries)) =
    claimLevel (dictGet (activityMap summaries) d) (max 1 (maxObserved summaries))
  by_cases hz : dictGet (activityMap summaries) d = 0
  · rw [hz]
    unfold heatLevel claimLevel
    simp
  · rcases dictGet_cases (activityMap summaries) d with h0 | ⟨p, hp, -, hpv⟩
    · exact absurd h0 hz
    · have hne : activityMap summaries ≠ [] := by
        intro hcon; rw [hcon] at hp; cases hp
      have hle : p.2 ≤ maxObserved summaries := by
        unfold maxObserved
        exact foldl_max_le_general _ 0 p hp
      have hM1 : 1 ≤ maxObserved summaries := by omega
      have hMfloor : max 1 (maxObserved summaries) = maxObserved summaries := by omega
      rw [hMfloor, maxActivity_eq_maxObserved summaries hne,
        heatLevel_eq_claimLevel]

/-- Witness for C4 at a concrete window:
one active day with score 4 among three days ending day 10. -/
theorem get_heatmap_levels_witness :
    (⟨9, 4, 4⟩ : HeatmapData) ∈ (get_heatmap [⟨9, 4⟩] 10 3).data ∧
      (4 : ℕ) = claimLevel 4 (max 1 (maxObserved [⟨9, 4⟩])) :=
  ⟨by simp [get_heatmap, heatFold, whileDays, heatStart, activityMap,
      dictInsert, dictGet, maxActivity, heatLevel],
    get_heatmap_levels [⟨9, 4⟩] 10 3 ⟨9, 4, 4⟩
      (by simp [get_heatmap, heatFold, whileDays, heatStart, activityMap,
        dictInsert, dictGet, maxActivity, heatLevel])⟩

theorem whileDays_unfold (cur endD : ℤ) :
    whileDays cur endD =
      if cur ≤ endD then cur :: whileDays (cur + 1) endD else [] := by
  rw [whileDays]

theorem whileDays_length :
    ∀ (n : ℕ) (cur endD : ℤ), (endD + 1 - cur).toNat = n →
      (whileDays cur endD).length = n := by
  intro n
  induction n with
  | zero =>
      intro cur endD hn
      rw [whileDays_unfold, if_neg (by omega)]
      rfl
  | succ m ih =>
      intro cur endD hn
      rw [whileDays_unfold, if_pos (by omega)]
      rw [List.length_cons, ih (cur + 1) endD (by omega)]

/-- **C5.** For a window of `N >= 1` days ending today, `get_heatmap`
returns exactly `N` points, one per calendar day of the window, with count 0
for days that have no summary row, and `active_days` equal to the number of
points with positive count. -/
theorem get_heatmap_complete (summaries : List HSummary) (today : ℤ)
    (days : ℕ) (h : 1 ≤ days) :
    (get_heatmap summaries today days).data.length = days ∧
    (get_heatmap summaries today days).data.map (fun pt => pt.date) =
      whileDays (heatStart today days) today ∧
    (∀ pt ∈ (get_heatmap summaries today days).data,
      (∀ s ∈ summaries, s.date ≠ pt.date) → pt.count = 0) ∧
    (get_heatmap summaries today days).active_days =
      (get_heatmap summaries today days).data.countP
        (fun pt => decide (pt.count > 0)) := by
  have hdata : (get_heatmap summaries today days).data =
      (whileDays (heatStart today days) today).map
        (fun d => ⟨d, dictGet (activityMap summaries) d,
          heatLevel (dictGet (activityMap summaries) d)
            (maxActivity (activityMap summaries))⟩) := by
    show (heatFold _ _ _).1 = _
    rw [heatFold_spec]
  have hact : (get_heatmap summaries today days).active_days =
      (whileDays (heatStart today days) today).countP
        (fun d => decide (dictGet (activityMap summaries) d > 0)) := by
    show (heatFold _ _ _).2 = _
    rw [heatFold_spec]
  refine ⟨?_, ?_, ?_, ?_⟩
  · rw [hdata, List.length_map]
    apply whileDays_length days
    unfold heatStart
    omega
  · rw [hdata, List.map_map]
    have : ((fun pt : HeatmapData => pt.date) ∘
        (fun d => (⟨d, dictGet (activityMap summaries) d,
          heatLevel (dictGet (activityMap summaries) d)
            (maxActivity (activityMap summaries))⟩ : HeatmapData))) = id := by
      funext d; rfl
    rw [this, List.map_id]
  · intro pt hpt hno
    rw [hdata] at hpt
    obtain ⟨d, -, hptv⟩ := List.mem_map.mp hpt
    subst hptv
    show dictGet (activityMap summaries) d = 0
    apply dictGet_of_no_key
    intro p hp hpk
    rcases activityMap_keys summaries [] p hp with hmem | ⟨s, hs, hsd⟩
    · cases hmem
    · exact hno s hs (by rw [hsd, hpk])
  · rw [hact, hdata, List.countP_map]
    rfl

/-- Witness for C5: days = 3 with a single summary row. -/
theorem get_heatmap_complete_witness :
    (1 : ℕ) ≤ 3 ∧
    ((get_heatmap [⟨9, 4⟩] 10 3).data.length = 3 ∧
      (get_heatmap [⟨9, 4⟩] 10 3).data.map (fun pt => pt.date) =
        whileDays (heatStart 10 3) 10 ∧
      (∀ pt ∈ (get_heatmap [⟨9, 4⟩] 10 3).data,
        (∀ s ∈ [(⟨9, 4⟩ : HSummary)], s.date ≠ pt.date) → pt.count = 0) ∧
      (get_heatmap [⟨9, 4⟩] 10 3).active_days =
        (get_heatmap [⟨9, 4⟩] 10 3).data.countP
          (fun pt => decide (pt.count > 0))) :=
  ⟨by decide, get_heatmap_complete [⟨9, 4⟩] 10 3 (by decide)⟩

end StatsService

namespace BulkAgg

open ActivityRepo

/-- A bulk-aggregation state: the running success counter, the summary
table, and the trace of (person, day) aggregation invocations issued so
far. -/
def BState : Type := ℕ × List ActivitySummary × List (ℕ × ℕ)

/-- The inner `for person in persons` loop of
`ActivityStatsService.bulk_aggregate_daily_activities` on one day.
`fails p d = true` injects the `except Exception` path (the per-item
aggregation raised); a raised `MultipleResultsFound` from the upsert is
caught by the same handler.  Every iteration is recorded in the invocation
trace; the counter increments only after a successful aggregate. -/
def bulkInner (ledger : Ledger) (fails : ℕ → ℕ → Bool) (d : ℕ) :
    List ℕ → BState → BState
  | [], st => st
  | p :: ps, (count, table, log) =>
      if fails p d then
        bulkInner ledger fails d ps (count, table, log ++ [(p, d)])
      else
        match aggregate_daily_activities ledger table p d with
        | .ok (table₂, _) =>
            bulkInner ledger fails d ps (count + 1, table₂, log ++ [(p, d)])
        | .error _ =>
            bulkInner ledger fails d ps (count, table, log ++ [(p, d)])

/-- The outer `while current_date <= end_date` loop. -/
def bulkOuter (ledger : Ledger) (fails : ℕ → ℕ → Bool) (persons : List ℕ)
    (cur endD : ℕ) (st : BState) : BState :=
  if cur ≤ endD then
    bulkOuter ledger fails persons (cur + 1) endD (bulkInner ledger fails cur persons st)
  else st
termination_by endD + 1 - cur
decreasing_by omega

/-- The loop body of `ActivityStatsService.bulk_aggregate_daily_activities`
over the person-id list the service iterates: every day of the inclusive
range times every fetched person.  The person fetch itself
(`person_repo.get_all(limit=10000)`, which truncates the directory) is
modelled in `bulk_aggregate_from_directory` below. -/
def bulk_aggregate_daily_activities (ledger : Ledger) (persons : List ℕ)
    (fails : ℕ → ℕ → Bool) (start_date end_date : ℕ)
    (table : List ActivitySummary) : BState :=
  bulkOuter ledger fails persons start_date end_date (0, table, [])

/-- The inclusive day range the outer loop walks. -/
def dayRange (cur endD : ℕ) : List ℕ :=
  if cur ≤ endD then cur :: dayRange (cur + 1) endD else []
termination_by endD + 1 - cur
decreasing_by omega

theorem dayRange_unfold (cur endD : ℕ) :
    dayRange cur endD =
      if cur ≤ endD then cur :: dayRange (cur + 1) endD else [] := by
  rw [dayRange]

theorem bulkOuter_unfold (ledger : Ledger) (fails : ℕ → ℕ → Bool)
    (persons : List ℕ) (cur endD : ℕ) (st : BState) :
    bulkOuter ledger fails persons cur endD st =
      if cur ≤ endD then
        bulkOuter ledger fails persons (cur + 1) endD
          (bulkInner ledger fails cur persons st)
      else st := by
  rw [bulkOuter]

/-- The full (person, day) combination list for the range. -/
def allCombos (persons : List ℕ) (startD endD : ℕ) : List (ℕ × ℕ) :=
  (dayRange startD endD).flatMap (fun d => persons.map (fun p => (p, d)))

theorem allCombos_nil (persons : List ℕ) {cur endD : ℕ} (h : ¬cur ≤ endD) :
    allCombos persons cur endD = [] := by
  unfold allCombos
  rw [dayRange_unfold, if_neg h]
  rfl

theorem allCombos_cons (persons : List ℕ) {cur endD : ℕ} (h : cur ≤ endD) :
    allCombos persons cur endD =
      persons.map (fun p => (p, cur)) ++ allCombos persons (cur + 1) endD := by
  unfold allCombos
  rw [dayRange_unfold, if_pos h, List.flatMap_cons]

theorem bulkInner_log (ledger : Ledger) (fails : ℕ → ℕ → Bool) (d : ℕ) :
    ∀ (persons : List ℕ) (st : BState),
      (bulkInner ledger fails d persons st).2.2 =
        st.2.2 ++ persons.map (fun p => (p, d)) := by
  intro persons
  induction persons with
  | nil => intro st; simp [bulkInner]
  | cons p ps ih =>
      intro st
      obtain ⟨count, table, log⟩ := st
      unfold bulkInner
      by_cases hf : fails p d = true
      · rw [if_pos hf, ih]
        simp
      · rw [if_neg hf]
        cases aggregate_daily_activities ledger table p d with
        | ok res =>
            obtain ⟨table₂, -⟩ := res
            rw [ih]
            simp
        | error e =>
            rw [ih]
            simp

theorem bulkOuter_log (ledger : Ledger) (fails : ℕ → ℕ → Bool)
    (persons : List ℕ) :
    ∀ (n cur endD : ℕ), endD + 1 - cur = n → ∀ (st : BState),
      (bulkOuter ledger fails persons cur endD st).2.2 =
        st.2.2 ++ allCombos persons cur endD := by
  intro n
  induction n with
  | zero =>
      intro cur endD hn st
      rw [bulkOuter_unfold, if_neg (by omega), allCombos_nil persons (by omega)]
      simp
  | succ m ih =>
      intro cur endD hn st
      rw [bulkOuter_unfold, if_pos (by omega)]
      rw [ih (cur + 1) endD (by omega), bulkInner_log,
        allCombos_cons persons (by omega : cur ≤ endD), List.append_assoc]

theorem countP_updateFirst_of_filter_singleton (p q : ActivitySummary → Bool)
    (s r : ActivitySummary) (hq : q r = q s) :
    ∀ table : List ActivitySummary, table.filter p = [r] →
      (updateFirst p (fun _ => s) table).countP q = table.countP q := by
  intro table
  induction table with
  | nil => intro hf; cases hf
  | cons x xs ih =>
      intro hf
      by_cases hx : p x = true
      · rw [List.filter_cons_of_pos hx] at hf
        injection hf with hxr hxs
        unfold updateFirst
        rw [if_pos hx, List.countP_cons, List.countP_cons, hxr, hq]
      · rw [List.filter_cons_of_neg (by simpa using hx)] at hf
        unfold updateFirst
        rw [if_neg hx, List.countP_cons, List.countP_cons, ih hf]

theorem dateOnly_mul (d : ℕ) : dateOnly (d * microsecondsPerDay) = d := by
  unfold dateOnly microsecondsPerDay
  omega

theorem create_or_update_keyCount_other (table : List ActivitySummary)
    (p dt c t sc : ℕ) (table₂ : List ActivitySummary) (out : ActivitySummary)
    (h : create_or_update_summary table p dt c t sc = .ok (table₂, out))
    (p2 d2 : ℕ) (hne : ¬(p2 = p ∧ d2 = dateOnly dt)) :
    keyCount table₂ p2 d2 = keyCount table p2 d2 := by
  unfold create_or_update_summary at h
  cases hf : table.filter (summaryKeyMatch p (dateOnly dt)) with
  | nil =>
      rw [hf] at h
      simp only [Except.ok.injEq, Prod.mk.injEq] at h
      obtain ⟨htab, -⟩ := h
      subst htab
      unfold keyCount
      rw [List.countP_append]
      have hnew : summaryKeyMatch p2 d2
          (⟨p, dt, c, t, sc⟩ : ActivitySummary) = false := by
        unfold summaryKeyMatch
        rw [Bool.and_eq_false_iff]
        by_cases h1 : p = p2
        · right
          simp only [decide_eq_false_iff_not]
          intro h2
          exact hne ⟨h1.symm, h2.symm⟩
        · left
          simp only [decide_eq_false_iff_not]
          exact fun hc => h1 hc
      rw [List.countP_singleton, hnew]
      rfl
  | cons r rest =>
      cases rest with
      | nil =>
          rw [hf] at h
          simp only [Except.ok.injEq, Prod.mk.injEq] at h
          obtain ⟨htab, -⟩ := h
          subst htab
          have hr : r ∈ table.filter (summaryKeyMatch p (dateOnly dt)) := by
            rw [hf]; exact List.mem_cons_self _ _
          have hkey := List.of_mem_filter hr
          unfold summaryKeyMatch at hkey
          simp only [Bool.and_eq_true, decide_eq_true_eq] at hkey
          have hq : summaryKeyMatch p2 d2 r =
              summaryKeyMatch p2 d2 ({ r with
                date := dt, conversations_created := c, tasks_completed := t,
                total_activity_score := sc } : ActivitySummary) := by
            unfold summaryKeyMatch
            show (decide (r.person_id = p2) && decide (dateOnly r.date = d2)) =
              (decide (r.person_id = p2) && decide (dateOnly dt = d2))
            rw [hkey.2]
          unfold keyCount
          exact countP_updateFirst_of_filter_singleton _ _ _ r hq table hf
      | cons r2 rest2 =>
          rw [hf] at h
          cases h

theorem aggregate_full (ledger : Ledger) (table : List ActivitySummary)
    (p d : ℕ) (hinv : ∀ p2 d2, keyCount table p2 d2 ≤ 1) :
    ∃ table₂ out,
      aggregate_daily_activities ledger table p d = .ok (table₂, out) ∧
      keyCount table₂ p d = 1 ∧
      (∀ p2 d2, ¬(p2 = p ∧ d2 = d) →
        keyCount table₂ p2 d2 = keyCount table p2 d2) ∧
      (∀ p2 d2, keyCount table₂ p2 d2 ≤ 1) := by
  obtain ⟨table₂, hok, hfil⟩ := aggregate_run ledger table p d (hinv p d)
  have hone : keyCount table₂ p d = 1 := by
    unfold keyCount
    rw [List.countP_eq_length_filter, hfil]
    rfl
  have hok2 : create_or_update_summary table p (d * microsecondsPerDay)
      (conversationsCountCode ledger p d) (tasksCountCode ledger p d)
      (conversationsCountCode ledger p d + tasksCountCode ledger p d * 2) =
      .ok (table₂, ⟨p, d * microsecondsPerDay,
        conversationsCountCode ledger p d, tasksCountCode ledger p d,
        conversationsCountCode ledger p d + tasksCountCode ledger p d * 2⟩) := hok
  have hother : ∀ p2 d2, ¬(p2 = p ∧ d2 = d) →
      keyCount table₂ p2 d2 = keyCount table p2 d2 := by
    intro p2 d2 hne
    refine create_or_update_keyCount_other table p (d * microsecondsPerDay)
      _ _ _ table₂ _ hok2 p2 d2 ?_
    rw [dateOnly_mul]
    exact hne
  refine ⟨table₂, _, hok, hone, hother, ?_⟩
  intro p2 d2
  by_cases hx : p2 = p ∧ d2 = d
  · obtain ⟨hx1, hx2⟩ := hx
    subst hx1; subst hx2
    omega
  · rw [hother p2 d2 hx]
    exact hinv p2 d2

theorem bulkInner_spec (ledger : Ledger) (fails : ℕ → ℕ → Bool) (d : ℕ) :
    ∀ (persons : List ℕ) (c : ℕ) (t : List ActivitySummary)
      (log : List (ℕ × ℕ)),
      (∀ p2 d2, keyCount t p2 d2 ≤ 1) →
      ∃ c2 t2,
        bulkInner ledger fails d persons (c, t, log) =
          (c2, t2, log ++ persons.map (fun p => (p, d))) ∧
        c2 = c + persons.countP (fun p => !fails p d) ∧
        (∀ p2 d2, keyCount t2 p2 d2 ≤ 1) ∧
        (∀ p2 d2, keyCount t p2 d2 = 1 → keyCount t2 p2 d2 = 1) ∧
        (∀ p ∈ persons, fails p d = false → keyCount t2 p d = 1) := by
  intro persons
  induction persons with
  | nil =>
      intro c t log hinv
      refine ⟨c, t, by simp [bulkInner], by simp, hinv, fun _ _ h => h, ?_⟩
      intro p hp
      cases hp
  | cons p ps ih =>
      intro c t log hinv
      by_cases hf : fails p d = true
      · obtain ⟨c2, t2, heq, hc, hinv2, hpres, hset⟩ := ih c t (log ++ [(p, d)]) hinv
        refine ⟨c2, t2, ?_, ?_, hinv2, hpres, ?_⟩
        · show (if fails p d then _ else _) = _
          rw [if_pos hf, heq, List.append_assoc]
          rfl
        · rw [hc, List.countP_cons]
          simp [hf]
        · intro q hq hqf
          rcases List.mem_cons.mp hq with h1 | h1
          · subst h1
            rw [hf] at hqf
            cases hqf
          · exact hset q h1 hqf
      · have hf2 : fails p d = false := by
          cases hfv : fails p d
          · rfl
          · exact absurd hfv hf
        obtain ⟨t2, out, hok, hone, -, hinv2⟩ := aggregate_full ledger t p d hinv
        obtain ⟨c3, t3, heq, hc, hinv3, hpres, hset⟩ :=
          ih (c + 1) t2 (log ++ [(p, d)]) hinv2
        refine ⟨c3, t3, ?_, ?_, hinv3, ?_, ?_⟩
        · show (if fails p d then _ else _) = _
          rw [if_neg hf, hok]
          show bulkInner ledger fails d ps (c + 1, t2, log ++ [(p, d)]) = _
          rw [heq, List.append_assoc]
          rfl
        · rw [hc, List.countP_cons]
          simp [hf2]
          omega
        · intro p2 d2 h1
          apply hpres
          by_cases hx : p2 = p ∧ d2 = d
          · obtain ⟨hx1, hx2⟩ := hx
            subst hx1; subst hx2
            exact hone
          · obtain ⟨t2x, outx, hokx, -, hotherx, -⟩ :=
              aggregate_full ledger t p d hinv
            rw [hok] at hokx
            simp only [Except.ok.injEq, Prod.mk.injEq] at hokx
            obtain ⟨hte, -⟩ := hokx
            rw [hte, hotherx p2 d2 hx]
            exact h1
        · intro q hq hqf
          rcases List.mem_cons.mp hq with h1 | h1
          · subst h1
            exact hpres q d hone
          · exact hset q h1 hqf

theorem bulkOuter_spec (ledger : Ledger) (fails : ℕ → ℕ → Bool)
    (persons : List ℕ) :
    ∀ (n cur endD : ℕ), endD + 1 - cur = n →
    ∀ (c : ℕ) (t : List ActivitySummary) (log : List (ℕ × ℕ)),
      (∀ p2 d2, keyCount t p2 d2 ≤ 1) →
      ∃ c2 t2,
        bulkOuter ledger fails persons cur endD (c, t, log) =
          (c2, t2, log ++ allCombos persons cur endD) ∧
        c2 = c + (allCombos persons cur endD).countP
          (fun pd => !fails pd.1 pd.2) ∧
        (∀ p2 d2, keyCount t2 p2 d2 ≤ 1) ∧
        (∀ p2 d2, keyCount t p2 d2 = 1 → keyCount t2 p2 d2 = 1) ∧
        (∀ dd, cur ≤ dd → dd ≤ endD → ∀ p ∈ persons, fails p dd = false →
          keyCount t2 p dd = 1) := by
  intro n
  induction n with
  | zero =>
      intro cur endD hn c t log hinv
      rw [bulkOuter_unfold, if_neg (by omega), allCombos_nil persons (by omega)]
      refine ⟨c, t, by simp, by simp, hinv, fun _ _ h => h, ?_⟩
      intro dd h1 h2
      omega
  | succ m ih =>
      intro cur endD hn c t log hinv
      rw [bulkOuter_unfold, if_pos (by omega)]
      obtain ⟨c2, t2, heqI, hcI, hinv2, hpresI, hsetI⟩ :=
        bulkInner_spec ledger fails cur persons c t log hinv
      rw [heqI]
      obtain ⟨c3, t3, heqO, hcO, hinv3, hpresO, hsetO⟩ :=
        ih (cur + 1) endD (by omega) c2 t2
          (log ++ persons.map (fun p => (p, cur))) hinv2
      refine ⟨c3, t3, ?_, ?_, hinv3, ?_, ?_⟩
      · rw [heqO, allCombos_cons persons (by omega : cur ≤ endD),
          List.append_assoc]
      · rw [hcO, hcI, allCombos_cons persons (by omega : cur ≤ endD),
          List.countP_append, List.countP_map]
        have : persons.countP (fun p => !fails p cur) =
            persons.countP ((fun pd : ℕ × ℕ => !fails pd.1 pd.2) ∘
              (fun p => (p, cur))) := rfl
        omega
      · intro p2 d2 h1
        exact hpresO p2 d2 (hpresI p2 d2 h1)
      · intro dd h1 h2 p hp hfp
        by_cases hd : dd = cur
        · subst hd
          exact hpresO p dd (hsetI p hp hfp)
        · exact hsetO dd (by omega) h2 p hp hfp

/-- Row of the persons table (fields used by the bulk aggregation). -/
structure Person where
  id : ℕ
  username : String
  deriving DecidableEq, Repr

/-- `PersonRepository.get_all(skip=0, limit, search=None)`: the person rows
ordered by username with the SQL LIMIT applied, paired with the total count
(computed before pagination).  The bulk aggregator discards the total. -/
def get_all (directory : List Person) (limit : ℕ) : List Person × ℕ :=
  ((directory.mergeSort (fun a b => decide (a.username ≤ b.username))).take limit,
   directory.length)

/-- `ActivityStatsService.bulk_aggregate_daily_activities` including the
person fetch: `persons, _ = await person_repo.get_all(limit=10000)`, then
the day-by-person double loop over the fetched persons. -/
def bulk_aggregate_from_directory (ledger : Ledger) (directory : List Person)
    (fails : ℕ → ℕ → Bool) (start_date end_date : ℕ)
    (table : List ActivitySummary) : BState :=
  bulkOuter ledger fails ((get_all directory 10000).1.map (fun p => p.id))
    start_date end_date (0, table, [])

theorem mem_allCombos_person {persons : List ℕ} {cur endD : ℕ}
    {pr : ℕ × ℕ} (h : pr ∈ allCombos persons cur endD) : pr.1 ∈ persons := by
  unfold allCombos at h
  obtain ⟨d, -, hd⟩ := List.mem_flatMap.mp h
  obtain ⟨p, hp, hpd⟩ := List.mem_map.mp hd
  rw [← hpd]
  exact hp

/-- **C8 (amended).** `bulk_aggregate_daily_activities` invokes the
single-day aggregate once for every combination of a calendar day in the
inclusive range and every person returned by the person fetch — the first
10000 known persons in username order, since the service calls
`get_all(limit=10000)`; persons beyond that cap are silently excluded.  The
invocation trace is exactly the day-by-fetched-person product; with no
per-item failure and the one-row-per-key invariant, every such combination
ends with exactly one summary row, so the series is gap-free for the
fetched persons; and whenever the directory holds at most 10000 persons the
fetched persons are all known persons, giving the claim as originally
stated. -/
theorem bulk_aggregate_exhaustive_directory (ledger : Ledger)
    (directory : List Person) (fails : ℕ → ℕ → Bool) (startD endD : ℕ)
    (table : List ActivitySummary) :
    (bulk_aggregate_from_directory ledger directory fails startD endD
        table).2.2 =
      allCombos ((get_all directory 10000).1.map (fun p => p.id)) startD endD ∧
    ((∀ p d, fails p d = false) → (∀ p2 d2, keyCount table p2 d2 ≤ 1) →
      ∀ p ∈ (get_all directory 10000).1, ∀ d, startD ≤ d → d ≤ endD →
        keyCount
          (bulk_aggregate_from_directory ledger directory fails startD endD
            table).2.1 p.id d = 1) ∧
    (directory.length ≤ 10000 → ∀ p ∈ directory,
      p ∈ (get_all directory 10000).1) := by
  refine ⟨?_, ?_, ?_⟩
  · unfold bulk_aggregate_from_directory
    rw [bulkOuter_log ledger fails ((get_all directory 10000).1.map
      (fun p => p.id)) (endD + 1 - startD) startD endD rfl]
    rfl
  · intro hfail hinv p hp d h1 h2
    obtain ⟨c2, t2, heq, -, -, -, hset⟩ :=
      bulkOuter_spec ledger fails ((get_all directory 10000).1.map
        (fun p => p.id)) (endD + 1 - startD) startD endD rfl 0 table [] hinv
    unfold bulk_aggregate_from_directory
    rw [heq]
    exact hset d h1 h2 p.id (List.mem_map.mpr ⟨p, hp, rfl⟩) (hfail p.id d)
  · intro hlen p hp
    have hperm := List.mergeSort_perm directory
      (fun a b => decide (a.username ≤ b.username))
    have hmem : p ∈ directory.mergeSort
        (fun a b => decide (a.username ≤ b.username)) := hperm.mem_iff.mpr hp
    show p ∈ (directory.mergeSort
      (fun a b => decide (a.username ≤ b.username))).take 10000
    rw [List.take_of_length_le (by rw [List.length_mergeSort]; omega)]
    exact hmem

/-- Witness for the amended C8: a one-person directory, a two-day range and
no failures; the single known person is fetched and ends with exactly one
summary row for day 3. -/
theorem bulk_aggregate_exhaustive_directory_witness :
    keyCount
      (bulk_aggregate_from_directory ⟨[], []⟩ [⟨1, "a"⟩] (fun _ _ => false)
        3 4 []).2.1 1 3 = 1 :=
  (bulk_aggregate_exhaustive_directory ⟨[], []⟩ [⟨1, "a"⟩] (fun _ _ => false)
      3 4 []).2.1
    (fun _ _ => rfl) (fun _ _ => Nat.zero_le 1) ⟨1, "a"⟩
    ((bulk_aggregate_exhaustive_directory ⟨[], []⟩ [⟨1, "a"⟩]
        (fun _ _ => false) 3 4 []).2.2 (by decide)
      ⟨1, "a"⟩ (List.mem_singleton.mpr rfl))
    3 (le_refl 3) (by omega)

/-- A person directory one past the `get_all` cap: 10001 persons sharing a
username, ids 0 .. 10000. -/
def overflowDirectory : List Person :=
  (List.range 10001).map (fun i => ⟨i, "u"⟩)

/-- **C8 counterexample.** With 10001 known persons, the person with id
10000 is a known person yet receives no aggregate invocation for the day
range [3, 3]: `get_all(limit=10000)` silently drops it, refuting "invokes
the single-day aggregate once for every combination of a calendar day in
the range and every known person" as stated. -/
theorem bulk_aggregate_truncation_counterexample :
    (⟨10000, "u"⟩ : Person) ∈ overflowDirectory ∧
    ((10000 : ℕ), (3 : ℕ)) ∉
      (bulk_aggregate_from_directory ⟨[], []⟩ overflowDirectory
        (fun _ _ => false) 3 3 []).2.2 := by
  constructor
  · exact List.mem_map.mpr ⟨10000, List.mem_range.mpr (by omega), rfl⟩
  · intro hmem
    have htr : (bulk_aggregate_from_directory ⟨[], []⟩ overflowDirectory
        (fun _ _ => false) 3 3 []).2.2 =
        allCombos ((get_all overflowDirectory 10000).1.map (fun p => p.id))
          3 3 :=
      (bulkOuter_log ⟨[], []⟩ (fun _ _ => false)
        ((get_all overflowDirectory 10000).1.map (fun p => p.id))
        (3 + 1 - 3) 3 3 rfl ((0, [], []) : BState)).trans
        (List.nil_append _)
    have hsorted : List.Pairwise
        (fun a b : Person => decide (a.username ≤ b.username) = true)
        overflowDirectory := by
      apply List.pairwise_of_forall_mem_list
      intro a ha b hb
      obtain ⟨i, -, hia⟩ := List.mem_map.mp ha
      obtain ⟨j, -, hjb⟩ := List.mem_map.mp hb
      rw [← hia, ← hjb]
      exact decide_eq_true (le_refl "u")
    have hids : (get_all overflowDirectory 10000).1.map (fun p => p.id) =
        List.range 10000 := by
      show ((overflowDirectory.mergeSort
        (fun a b => decide (a.username ≤ b.username))).take 10000).map
          (fun p => p.id) = _
      rw [List.mergeSort_of_sorted hsorted]
      unfold overflowDirectory
      rw [← List.map_take, List.take_range]
      have hmin : (10000 : ℕ) ⊓ 10001 = 10000 := by omega
      rw [hmin, List.map_map]
      exact List.map_id _
    rw [htr, hids] at hmem
    have h10 := mem_allCombos_person hmem
    rw [List.mem_range] at h10
    omega

/-- **C9.** A per-(person, day) failure is skipped without aborting the
batch: the invocation trace still covers every combination, and the returned
counter equals exactly the number of combinations whose aggregation
succeeded (all non-failing ones, given the table invariant). -/
theorem bulk_aggregate_count (ledger : Ledger) (persons : List ℕ)
    (fails : ℕ → ℕ → Bool) (startD endD : ℕ) (table : List ActivitySummary)
    (hinv : ∀ p2 d2, keyCount table p2 d2 ≤ 1) :
    (bulk_aggregate_daily_activities ledger persons fails startD endD table).2.2 =
      allCombos persons startD endD ∧
    (bulk_aggregate_daily_activities ledger persons fails startD endD table).1 =
      (allCombos persons startD endD).countP (fun pd => !fails pd.1 pd.2) := by
  obtain ⟨c2, t2, heq, hc, -, -, -⟩ :=
    bulkOuter_spec ledger fails persons (endD + 1 - startD) startD endD rfl
      0 table [] hinv
  unfold bulk_aggregate_daily_activities
  rw [heq]
  exact ⟨by simp, by rw [hc]; omega⟩

/-- Witness for C9: person 2 fails on day 3 while person 1 succeeds on both
days of the range; the count equals the number of non-failing combinations. -/
theorem bulk_aggregate_count_witness :
    (bulk_aggregate_daily_activities ⟨[], []⟩ [1, 2]
        (fun p d => decide (p = 2) && decide (d = 3)) 3 4 []).1 =
      (allCombos [1, 2] 3 4).countP
        (fun pd => !(decide (pd.1 = 2) && decide (pd.2 = 3))) :=
  (bulk_aggregate_count ⟨[], []⟩ [1, 2]
    (fun p d => decide (p = 2) && decide (d = 3)) 3 4 []
    (fun _ _ => Nat.zero_le 1)).2

end BulkAgg

namespace CacheTasks

open ActivityRepo (updateFirst)

/-- Row of the `cache_metadata` table. -/
structure CacheMetadata where
  cache_type : String
  last_updated : ℕ
  is_updating : Bool
  total_records : ℕ
  update_duration_seconds : ℕ
  error_message : Option String
  deriving DecidableEq, Repr

/-- Row of the cached projects table (representative scalar fields; the
remaining scalar columns are copied identically by the task and behave the
same way). -/
structure CachedNotionProject where
  page_id : String
  project_name : Option String
  status : Option String
  url : Option String
  notion_created_time : ℕ
  notion_last_edited_time : ℕ
  deriving DecidableEq, Repr

/-- State of the cache database: metadata rows plus project rows. -/
structure CacheDB where
  metadata : List CacheMetadata
  projects : List CachedNotionProject
  deriving DecidableEq, Repr

/-- `CacheRepository.get_cache_metadata`. -/
def get_cache_metadata (db : CacheDB) (cache_type : String) :
    Option CacheMetadata :=
  db.metadata.find? (fun m => m.cache_type == cache_type)

/-- `CacheRepository.set_cache_updating` (creates the row when missing). -/
def set_cache_updating (db : CacheDB) (cache_type : String) (b : Bool)
    (now : ℕ) : CacheDB :=
  match get_cache_metadata db cache_type with
  | some _ =>
      { db with metadata :=
          (updateFirst (fun m => m.cache_type == cache_type)
            (fun m => { m with is_updating := b }) db.metadata) }
  | none =>
      { db with metadata := db.metadata ++ [⟨cache_type, now, b, 0, 0, none⟩] }

/-- `CacheRepository.update_cache_metadata`: sets `last_updated = now`,
`is_updating = false`, the record count, the duration and the error
message (upserting the row). -/
def update_cache_metadata (db : CacheDB) (cache_type : String)
    (total_records update_duration_seconds : ℕ) (error_message : Option String)
    (now : ℕ) : CacheDB :=
  match get_cache_metadata db cache_type with
  | some _ =>
      { db with metadata :=
          (updateFirst (fun m => m.cache_type == cache_type)
            (fun m => { m with
              last_updated := now
              is_updating := false
              total_records := total_records
              update_duration_seconds := update_duration_seconds
              error_message := error_message }) db.metadata) }
  | none =>
      { db with metadata := db.metadata ++
          [⟨cache_type, now, false, total_records, update_duration_seconds,
            error_message⟩] }

/-- `CacheRepository.clear_projects_cache` (DELETE + COMMIT). -/
def clear_projects_cache (db : CacheDB) : CacheDB :=
  { db with projects := [] }

/-- `CacheRepository.bulk_insert_projects` (bulk save + COMMIT). -/
def bulk_insert_projects (db : CacheDB) (ps : List CachedNotionProject) :
    CacheDB :=
  { db with projects := db.projects ++ ps }

/-- A Notion timestamp field as received: `str` or already a datetime
(the task dispatches on `isinstance(..., str)`). -/
inductive StrOrDt
  | str (s : String)
  | dt (t : ℕ)
  deriving DecidableEq, Repr

/-- A project as returned by `NotionService.get_all_projects`. -/
structure RawProject where
  page_id : String
  project_name : Option String
  status : Option String
  url : Option String
  created_time : StrOrDt
  last_edited_time : StrOrDt
  deriving DecidableEq, Repr

/-- Environment of one task run: the outcome of the Notion fetch (`.error`
models an exception raised while fetching), the external
`datetime.fromisoformat` parser (raises `ValueError` on malformed strings),
and the wall-clock time used for metadata timestamps. -/
structure TaskEnv where
  fetch : Except String (List RawProject)
  fromisoformat : String → Except String ℕ
  now : ℕ

/-- Time-field normalisation in the conversion loop. -/
def parseTime (env : TaskEnv) : StrOrDt → Except String ℕ
  | .str s => env.fromisoformat s
  | .dt t => .ok t

/-- Conversion of one fetched project to a cache row (can raise via
`fromisoformat`). -/
def convertProject (env : TaskEnv) (p : RawProject) :
    Except String CachedNotionProject :=
  match parseTime env p.created_time with
  | .error e => .error e
  | .ok created_time =>
      match parseTime env p.last_edited_time with
      | .error e => .error e
      | .ok last_edited_time =>
          .ok ⟨p.page_id, p.project_name, p.status, p.url,
            created_time, last_edited_time⟩

/-- The `for project in projects_response.projects` conversion loop; the
first conversion exception aborts the loop. -/
def convertAll (env : TaskEnv) : List RawProject →
    Except String (List CachedNotionProject)
  | [] => .ok []
  | p :: ps =>
      match convertProject env p with
      | .error e => .error e
      | .ok cp =>
          match convertAll env ps with
          | .error e => .error e
          | .ok cps => .ok (cp :: cps)

/-- Outcome of a task run: the skipped short-circuit, the success dict, or a
re-raised exception (`raise self.retry(exc=exc, ...)`). -/
inductive TaskResult
  | skipped
  | success (total_records duration_seconds : ℕ)
  | raised (msg : String)
  deriving DecidableEq, Repr

/-- The guard `if metadata and metadata.is_updating`. -/
def guardUpdating (db : CacheDB) : Bool :=
  match get_cache_metadata db "projects" with
  | some m => m.is_updating
  | none => false

/-- The `except Exception` block: record the error in the metadata (which
also sets `is_updating = false`) and re-raise. -/
def exceptPath (db : CacheDB) (msg : String) (dur now : ℕ) :
    TaskResult × CacheDB :=
  (.raised msg, update_cache_metadata db "projects" 0 dur (some msg) now)

/-- `update_projects_cache`: guard, mark updating, fetch, clear the old
rows (committed immediately), convert, bulk insert, record metadata.  Any
exception goes through `exceptPath`.  `dur` is the measured elapsed time. -/
def update_projects_cache (db : CacheDB) (env : TaskEnv) (dur : ℕ) :
    TaskResult × CacheDB :=
  if guardUpdating db then (.skipped, db)
  else
    match env.fetch with
    | .error msg =>
        exceptPath (set_cache_updating db "projects" true env.now) msg dur
          env.now
    | .ok raws =>
        match convertAll env raws with
        | .error msg =>
            exceptPath
              (clear_projects_cache
                (set_cache_updating db "projects" true env.now)) msg dur env.now
        | .ok cached =>
            (.success cached.length dur,
              update_cache_metadata
                (bulk_insert_projects
                  (clear_projects_cache
                    (set_cache_updating db "projects" true env.now)) cached)
                "projects" cached.length dur none env.now)

/-- One-refresh-at-a-time transition system for the "projects" cache type:
a `start` step is the atomic guard check plus `set_cache_updating true` at
the head of the task; `skip` is the refused entry; `finish` is the tail of a
running task (its `update_cache_metadata` sets `is_updating := false` on
both the success and the error path).  The second component counts the
refreshes currently in progress. -/
inductive RefreshStep : CacheDB × ℕ → CacheDB × ℕ → Prop
  | start (db : CacheDB) (n now : ℕ) (h : guardUpdating db = false) :
      RefreshStep (db, n) (set_cache_updating db "projects" true now, n + 1)
  | skip (db : CacheDB) (n : ℕ) (h : guardUpdating db = true) :
      RefreshStep (db, n) (db, n)
  | finish (db : CacheDB) (n total dur : ℕ) (err : Option String) (now : ℕ)
      (h : 1 ≤ n) :
      RefreshStep (db, n)
        (update_cache_metadata db "projects" total dur err now, n - 1)

theorem find?_updateFirst_same {α : Type} (p : α → Bool) (f : α → α)
    (hpf : ∀ x, p (f x) = p x) :
    ∀ (l : List α) (r : α), l.find? p = some r →
      (updateFirst p f l).find? p = some (f r) := by
  intro l
  induction l with
  | nil => intro r hr; cases hr
  | cons x xs ih =>
      intro r hr
      by_cases hx : p x = true
      · rw [List.find?_cons_of_pos _ hx] at hr
        injection hr with hxr
        subst hxr
        unfold updateFirst
        rw [if_pos hx]
        exact List.find?_cons_of_pos _ (by rw [hpf]; exact hx)
      · rw [List.find?_cons_of_neg _ (by simpa using hx)] at hr
        unfold updateFirst
        rw [if_neg hx]
        rw [List.find?_cons_of_neg _ (by simpa using hx)]
        exact ih r hr

theorem get_cache_metadata_after_set_some (db : CacheDB) (now : ℕ)
    (m : CacheMetadata) (hm : get_cache_metadata db "projects" = some m) :
    get_cache_metadata (set_cache_updating db "projects" true now) "projects" =
      some { m with is_updating := true } := by
  unfold set_cache_updating
  rw [hm]
  show (updateFirst (fun x => x.cache_type == "projects")
      (fun x => { x with is_updating := true }) db.metadata).find?
      (fun x => x.cache_type == "projects") = _
  have hm2 : db.metadata.find? (fun x => x.cache_type == "projects") =
      some m := hm
  exact find?_updateFirst_same (fun x => x.cache_type == "projects")
    (fun x => { x with is_updating := true }) (fun x => rfl) db.metadata m hm2

theorem get_cache_metadata_after_set_none (db : CacheDB) (now : ℕ)
    (hm : get_cache_metadata db "projects" = none) :
    get_cache_metadata (set_cache_updating db "projects" true now) "projects" =
      some ⟨"projects", now, true, 0, 0, none⟩ := by
  unfold set_cache_updating
  rw [hm]
  show (db.metadata ++
      [(⟨"projects", now, true, 0, 0, none⟩ : CacheMetadata)]).find?
      (fun x => x.cache_type == "projects") = _
  rw [List.find?_append]
  unfold get_cache_metadata at hm
  rw [hm]
  rfl

theorem guardUpdating_after_set (db : CacheDB) (now : ℕ) :
    guardUpdating (set_cache_updating db "projects" true now) = true := by
  unfold guardUpdating
  cases hm : get_cache_metadata db "projects" with
  | some m => rw [get_cache_metadata_after_set_some db now m hm]
  | none => rw [get_cache_metadata_after_set_none db now hm]

/-- **C6.** If a refresh is triggered while the "projects" metadata has
`is_updating = true`, the task short-circuits with a skipped result and the
database — cache rows and every metadata field — is unchanged; and along any
trace of the refresh transition system started with no refresh in progress,
at most one refresh per cache type is ever in progress. -/
theorem cache_refresh_mutual_exclusion :
    (∀ (db : CacheDB) (env : TaskEnv) (dur : ℕ), guardUpdating db = true →
      update_projects_cache db env dur = (.skipped, db)) ∧
    (∀ (db : CacheDB) (s : CacheDB × ℕ),
      Relation.ReflTransGen RefreshStep (db, 0) s → s.2 ≤ 1) := by
  constructor
  · intro db env dur h
    unfold update_projects_cache
    rw [if_pos h]
  · intro db s htrace
    suffices hinv : s.2 ≤ 1 ∧ (s.2 = 1 → guardUpdating s.1 = true) from hinv.1
    induction htrace with
    | refl => exact ⟨by omega, fun h => by omega⟩
    | tail hsteps hstep ih =>
        cases hstep with
        | start db2 n now h =>
            obtain ⟨h1, h2⟩ := ih
            have hn : n = 0 := by
              by_cases hn1 : n = 1
              · rw [h2 hn1] at h; cases h
              · omega
            subst hn
            exact ⟨by omega, fun _ => guardUpdating_after_set db2 now⟩
        | skip db2 n h => exact ih
        | finish db2 n total dur err now h =>
            obtain ⟨h1, -⟩ := ih
            exact ⟨by omega, fun hx => by omega⟩

/-- Witness for C6: a database already marked updating is returned
unchanged with a skipped result, and the empty trace has at most one
refresh in progress. -/
theorem cache_refresh_mutual_exclusion_witness :
    update_projects_cache
      ⟨[⟨"projects", 7, true, 5, 2, none⟩], [⟨"old", none, none, none, 1, 2⟩]⟩
      ⟨.ok [], fun _ => .error "x", 9⟩ 0 =
      (.skipped,
        ⟨[⟨"projects", 7, true, 5, 2, none⟩],
          [⟨"old", none, none, none, 1, 2⟩]⟩) ∧
    ((⟨[], []⟩, 0) : CacheDB × ℕ).2 ≤ 1 :=
  ⟨cache_refresh_mutual_exclusion.1
    ⟨[⟨"projects", 7, true, 5, 2, none⟩], [⟨"old", none, none, none, 1, 2⟩]⟩
    ⟨.ok [], fun _ => .error "x", 9⟩ 0 (by decide),
   cache_refresh_mutual_exclusion.2 ⟨[], []⟩ (⟨[], []⟩, 0)
    Relation.ReflTransGen.refl⟩


theorem update_cache_metadata_projects (db : CacheDB) (cache_type : String)
    (total dur : ℕ) (err : Option String) (now : ℕ) :
    (update_cache_metadata db cache_type total dur err now).projects =
      db.projects := by
  unfold update_cache_metadata
  cases hm : get_cache_metadata db cache_type <;> rfl

theorem set_cache_updating_projects (db : CacheDB) (cache_type : String)
    (b : Bool) (now : ℕ) :
    (set_cache_updating db cache_type b now).projects = db.projects := by
  unfold set_cache_updating
  cases hm : get_cache_metadata db cache_type <;> rfl

theorem get_cache_metadata_after_update (db : CacheDB) (total dur : ℕ)
    (err : Option String) (now : ℕ) :
    ∃ m, get_cache_metadata
        (update_cache_metadata db "projects" total dur err now) "projects" =
        some m ∧
      m.is_updating = false ∧ m.error_message = err ∧
      m.total_records = total ∧ m.update_duration_seconds = dur ∧
      m.last_updated = now := by
  unfold update_cache_metadata
  cases hm : get_cache_metadata db "projects" with
  | some m0 =>
      refine ⟨{ m0 with
        last_updated := now, is_updating := false, total_records := total,
        update_duration_seconds := dur, error_message := err },
        ?_, rfl, rfl, rfl, rfl, rfl⟩
      have hm2 : db.metadata.find? (fun x => x.cache_type == "projects") =
          some m0 := hm
      show (updateFirst (fun x => x.cache_type == "projects")
          (fun x => { x with
            last_updated := now, is_updating := false, total_records := total,
            update_duration_seconds := dur, error_message := err })
          db.metadata).find? (fun x => x.cache_type == "projects") = _
      exact find?_updateFirst_same (fun x => x.cache_type == "projects")
        (fun x => { x with
          last_updated := now, is_updating := false, total_records := total,
          update_duration_seconds := dur, error_message := err })
        (fun x => rfl) db.metadata m0 hm2
  | none =>
      refine ⟨⟨"projects", now, false, total, dur, err⟩,
        ?_, rfl, rfl, rfl, rfl, rfl⟩
      show (db.metadata ++
          [(⟨"projects", now, false, total, dur, err⟩ : CacheMetadata)]).find?
          (fun x => x.cache_type == "projects") = _
      rw [List.find?_append]
      unfold get_cache_metadata at hm
      rw [hm]
      rfl

/-- **C7 (amended).** Every failed refresh records the error message in the
cache metadata, leaves `is_updating = false`, re-raises (the task outcome is
the raised exception), and commits no partially fetched data: after the
failed attempt the project rows are either the untouched old snapshot (when
the exception was raised during the fetch) or empty (when it was raised
after the clear step, which deletes and commits before the new data is
inserted) — never a partial subset of the new data.  The rows are guaranteed
unchanged only for fetch-step failures, not for all failures as the claim
stated. -/
theorem update_projects_cache_error (db : CacheDB) (env : TaskEnv) (dur : ℕ)
    (msg : String) (res : CacheDB)
    (h : update_projects_cache db env dur = (.raised msg, res)) :
    (∃ m, get_cache_metadata res "projects" = some m ∧
      m.error_message = some msg ∧ m.is_updating = false) ∧
    (res.projects = db.projects ∨ res.projects = []) ∧
    (∀ e, env.fetch = .error e → res.projects = db.projects) := by
  unfold update_projects_cache at h
  by_cases hg : guardUpdating db = true
  · rw [if_pos hg] at h
    simp only [Prod.mk.injEq] at h
    cases h.1
  · rw [if_neg hg] at h
    cases hf : env.fetch with
    | error e =>
        rw [hf] at h
        unfold exceptPath at h
        simp only [Prod.mk.injEq, TaskResult.raised.injEq] at h
        obtain ⟨hmsg, hres⟩ := h
        subst hres
        obtain ⟨m, hm, hupd, herr, -⟩ :=
          get_cache_metadata_after_update
            (set_cache_updating db "projects" true env.now) 0 dur (some e)
            env.now
        refine ⟨⟨m, hm, by rw [herr, hmsg], hupd⟩, ?_, ?_⟩
        · left
          rw [update_cache_metadata_projects, set_cache_updating_projects]
        · intro e2 he2
          rw [update_cache_metadata_projects, set_cache_updating_projects]
    | ok raws =>
        rw [hf] at h
        dsimp only at h
        cases hc : convertAll env raws with
        | error e =>
            rw [hc] at h
            unfold exceptPath at h
            simp only [Prod.mk.injEq, TaskResult.raised.injEq] at h
            obtain ⟨hmsg, hres⟩ := h
            subst hres
            obtain ⟨m, hm, hupd, herr, -⟩ :=
              get_cache_metadata_after_update
                (clear_projects_cache
                  (set_cache_updating db "projects" true env.now)) 0 dur
                (some e) env.now
            refine ⟨⟨m, hm, by rw [herr, hmsg], hupd⟩, ?_, ?_⟩
            · right
              rw [update_cache_metadata_projects]
              rfl
            · intro e2 he2
              cases he2
        | ok cached =>
            rw [hc] at h
            simp only [Prod.mk.injEq] at h
            cases h.1

/-- Witness for the amended C7 at a concrete failing run (conversion fails
after the clear step). -/
theorem update_projects_cache_error_witness :
    update_projects_cache ⟨[], [⟨"old", none, none, none, 0, 0⟩]⟩
        ⟨.ok [⟨"p1", none, none, none, .str "bad", .dt 5⟩],
         fun _ => .error "Invalid isoformat string", 100⟩ 0 =
      (.raised "Invalid isoformat string",
        (update_projects_cache ⟨[], [⟨"old", none, none, none, 0, 0⟩]⟩
          ⟨.ok [⟨"p1", none, none, none, .str "bad", .dt 5⟩],
           fun _ => .error "Invalid isoformat string", 100⟩ 0).2) ∧
    ((∃ m, get_cache_metadata
        (update_projects_cache ⟨[], [⟨"old", none, none, none, 0, 0⟩]⟩
          ⟨.ok [⟨"p1", none, none, none, .str "bad", .dt 5⟩],
           fun _ => .error "Invalid isoformat string", 100⟩ 0).2 "projects" =
        some m ∧
      m.error_message = some "Invalid isoformat string" ∧
      m.is_updating = false) ∧
    ((update_projects_cache ⟨[], [⟨"old", none, none, none, 0, 0⟩]⟩
          ⟨.ok [⟨"p1", none, none, none, .str "bad", .dt 5⟩],
           fun _ => .error "Invalid isoformat string", 100⟩ 0).2.projects =
        [⟨"old", none, none, none, 0, 0⟩] ∨
      (update_projects_cache ⟨[], [⟨"old", none, none, none, 0, 0⟩]⟩
          ⟨.ok [⟨"p1", none, none, none, .str "bad", .dt 5⟩],
           fun _ => .error "Invalid isoformat string", 100⟩ 0).2.projects =
        []) ∧
    (∀ e, (Except.ok [(⟨"p1", none, none, none, .str "bad", .dt 5⟩ :
          RawProject)] : Except String (List RawProject)) = .error e →
      (update_projects_cache ⟨[], [⟨"old", none, none, none, 0, 0⟩]⟩
          ⟨.ok [⟨"p1", none, none, none, .str "bad", .dt 5⟩],
           fun _ => .error "Invalid isoformat string", 100⟩ 0).2.projects =
        [⟨"old", none, none, none, 0, 0⟩])) :=
  ⟨by decide,
   update_projects_cache_error ⟨[], [⟨"old", none, none, none, 0, 0⟩]⟩
     ⟨.ok [⟨"p1", none, none, none, .str "bad", .dt 5⟩],
      fun _ => .error "Invalid isoformat string", 100⟩ 0
     "Invalid isoformat string" _ (by decide)⟩

/-- **C7 counterexample.** A refresh whose conversion raises after the clear
step leaves the cache empty: the rows visible to readers are NOT the same
before and after the failed attempt, refuting the claim as stated. -/
theorem update_projects_cache_snapshot_counterexample :
    (update_projects_cache ⟨[], [⟨"old", none, none, none, 0, 0⟩]⟩
        ⟨.ok [⟨"p1", none, none, none, .str "bad", .dt 5⟩],
         fun _ => .error "Invalid isoformat string", 100⟩ 0).1 =
      .raised "Invalid isoformat string" ∧
    (update_projects_cache ⟨[], [⟨"old", none, none, none, 0, 0⟩]⟩
        ⟨.ok [⟨"p1", none, none, none, .str "bad", .dt 5⟩],
         fun _ => .error "Invalid isoformat string", 100⟩ 0).2.projects ≠
      [⟨"old", none, none, none, 0, 0⟩] := by
  decide

end CacheTasks

namespace TaskLedger

open ActivityRepo (TaskActivity updateFirst)

/-- One entry of the `task_activities` list prepared by
`ActivitySyncService.sync_tasks` (one per assignee per Done task). -/
structure TaskInput where
  person_id : ℕ
  notion_task_id : String
  task_title : Option String
  project_name : Option String
  completed_at : ℕ
  last_status_change : Option ℕ
  notion_metadata : Option String
  deriving DecidableEq, Repr

/-- `ActivityRepository.get_task_by_notion_id`: lookup by the external
Notion task ID alone. -/
def get_task_by_notion_id (table : List TaskActivity) (notion_task_id : String) :
    Option TaskActivity :=
  table.find? (fun r => r.notion_task_id == notion_task_id)

/-- Python truthiness of an optional string (None and the empty string are
falsy); also used for the metadata blob. -/
def truthyStr : Option String → Bool
  | some s => !(s == "")
  | none => false

/-- Python truthiness of an optional datetime (datetimes are truthy). -/
def truthyDt : Option ℕ → Bool
  | some _ => true
  | none => false

/-- `if task.get("task_title") and existing.task_title != task["task_title"]`. -/
def updTitle (task : TaskInput) (r : TaskActivity) : TaskActivity :=
  if truthyStr task.task_title && !(r.task_title == task.task_title) then
    { r with task_title := task.task_title }
  else r

/-- `if task.get("project_name") != existing.project_name` (no truthiness
test; assigns `task.get("project_name")`). -/
def updProject (task : TaskInput) (r : TaskActivity) : TaskActivity :=
  if !(task.project_name == r.project_name) then
    { r with project_name := task.project_name }
  else r

/-- `if task.get("notion_metadata") and not existing.notion_metadata`. -/
def updMeta (task : TaskInput) (r : TaskActivity) : TaskActivity :=
  if truthyStr task.notion_metadata && !(truthyStr r.notion_metadata) then
    { r with notion_metadata := task.notion_metadata }
  else r

/-- `if task.get("completed_at") and existing.completed_at != ...`
(the incoming completion datetime is always present and truthy). -/
def updCompleted (task : TaskInput) (r : TaskActivity) : TaskActivity :=
  if !(r.completed_at == task.completed_at) then
    { r with completed_at := task.completed_at }
  else r

/-- `if task.get("last_status_change") and existing.last_status_change != ...`. -/
def updStatusChange (task : TaskInput) (r : TaskActivity) : TaskActivity :=
  if truthyDt task.last_status_change &&
      !(r.last_status_change == task.last_status_change) then
    { r with last_status_change := task.last_status_change }
  else r

/-- `existing.last_synced_at = datetime.utcnow()` (always). -/
def updSynced (now : ℕ) (r : TaskActivity) : TaskActivity :=
  { r with last_synced_at := now }

/-- The whole update branch of `bulk_create_tasks` for an existing row. -/
def applyTaskUpdate (task : TaskInput) (now : ℕ) (r : TaskActivity) :
    TaskActivity :=
  updSynced now (updStatusChange task (updCompleted task
    (updMeta task (updProject task (updTitle task r)))))

/-- One iteration of the `for task in tasks` loop of `bulk_create_tasks`:
create when no row carries this Notion ID, otherwise update that row's
mutable fields in place. -/
def processOne (now : ℕ) (table : List TaskActivity) (task : TaskInput) :
    List TaskActivity :=
  match get_task_by_notion_id table task.notion_task_id with
  | none =>
      table ++ [⟨task.person_id, task.notion_task_id, task.task_title,
        task.project_name, task.completed_at, task.last_status_change,
        task.notion_metadata, now⟩]
  | some _ =>
      updateFirst (fun r => r.notion_task_id == task.notion_task_id)
        (applyTaskUpdate task now) table

/-- `ActivityRepository.bulk_create_tasks`. -/
def bulk_create_tasks (now : ℕ) (tasks : List TaskInput)
    (table : List TaskActivity) : List TaskActivity :=
  tasks.foldl (processOne now) table

/-- A sequence of sync passes (each with its own wall-clock time). -/
def syncSequence (batches : List (List TaskInput × ℕ))
    (table : List TaskActivity) : List TaskActivity :=
  batches.foldl (fun tbl b => bulk_create_tasks b.2 b.1 tbl) table

/-- Number of ledger rows carrying a given Notion task ID. -/
def rowCount (table : List TaskActivity) (notion_task_id : String) : ℕ :=
  table.countP (fun r => r.notion_task_id == notion_task_id)

/-- The ledger row for a given Notion task ID (first match). -/
def rowFor (table : List TaskActivity) (notion_task_id : String) :
    Option TaskActivity :=
  table.find? (fun r => r.notion_task_id == notion_task_id)

theorem applyTaskUpdate_person (task : TaskInput) (now : ℕ)
    (r : TaskActivity) : (applyTaskUpdate task now r).person_id = r.person_id := by
  unfold applyTaskUpdate updSynced updStatusChange updCompleted updMeta
    updProject updTitle
  split_ifs <;> rfl

theorem applyTaskUpdate_id (task : TaskInput) (now : ℕ) (r : TaskActivity) :
    (applyTaskUpdate task now r).notion_task_id = r.notion_task_id := by
  unfold applyTaskUpdate updSynced updStatusChange updCompleted updMeta
    updProject updTitle
  split_ifs <;> rfl

theorem countP_updateFirst {α : Type} (p q : α → Bool) (f : α → α)
    (hqf : ∀ x, q (f x) = q x) :
    ∀ l : List α, (updateFirst p f l).countP q = l.countP q := by
  intro l
  induction l with
  | nil => rfl
  | cons x xs ih =>
      unfold updateFirst
      by_cases hx : p x = true
      · rw [if_pos hx, List.countP_cons, List.countP_cons, hqf]
      · rw [if_neg hx, List.countP_cons, List.countP_cons, ih]

theorem find?_updateFirst_of_incompat {α : Type} (p q : α → Bool) (f : α → α)
    (hpq : ∀ x, p x = true → q x = false) (hqf : ∀ x, q (f x) = q x) :
    ∀ l : List α, (updateFirst p f l).find? q = l.find? q := by
  intro l
  induction l with
  | nil => rfl
  | cons x xs ih =>
      unfold updateFirst
      by_cases hx : p x = true
      · rw [if_pos hx]
        have hqx : q x = false := hpq x hx
        have hqfx : q (f x) = false := by rw [hqf]; exact hqx
        rw [List.find?_cons_of_neg _ (by simp [hqfx]),
          List.find?_cons_of_neg _ (by simp [hqx])]
      · rw [if_neg hx]
        by_cases hq : q x = true
        · rw [List.find?_cons_of_pos _ hq, List.find?_cons_of_pos _ hq]
        · rw [List.find?_cons_of_neg _ (by simpa using hq),
            List.find?_cons_of_neg _ (by simpa using hq), ih]

theorem rowFor_none_rowCount_zero (table : List TaskActivity) (id : String)
    (h : rowFor table id = none) : rowCount table id = 0 := by
  unfold rowFor at h
  unfold rowCount
  rw [List.countP_eq_zero]
  intro r hr
  have := List.find?_eq_none.mp h r hr
  simpa using this

theorem processOne_other (now : ℕ) (table : List TaskActivity)
    (task : TaskInput) (id : String) (hne : task.notion_task_id ≠ id) :
    rowFor (processOne now table task) id = rowFor table id ∧
    rowCount (processOne now table task) id = rowCount table id := by
  unfold processOne
  cases hedge : get_task_by_notion_id table task.notion_task_id with
  | none =>
      have hnew : ((⟨task.person_id, task.notion_task_id, task.task_title,
          task.project_name, task.completed_at, task.last_status_change,
          task.notion_metadata, now⟩ : TaskActivity).notion_task_id == id) =
          false := by
        simp only [beq_eq_false_iff_ne, ne_eq]
        exact hne
      constructor
      · unfold rowFor
        rw [List.find?_append]
        rw [List.find?_cons_of_neg _ (by simp [hnew])]
        cases table.find? (fun r => r.notion_task_id == id) <;> rfl
      · unfold rowCount
        rw [List.countP_append, List.countP_singleton, hnew]
        rfl
  | some r =>
      constructor
      · unfold rowFor
        apply find?_updateFirst_of_incompat
        · intro x hx
          simp only [beq_iff_eq] at hx
          simp only [beq_eq_false_iff_ne, ne_eq, hx]
          exact hne
        · intro x
          rw [applyTaskUpdate_id]
      · unfold rowCount
        apply countP_updateFirst
        intro x
        rw [applyTaskUpdate_id]

theorem processOne_same_none (now : ℕ) (table : List TaskActivity)
    (task : TaskInput) (hnone : rowFor table task.notion_task_id = none) :
    rowFor (processOne now table task) task.notion_task_id =
      some ⟨task.person_id, task.notion_task_id, task.task_title,
        task.project_name, task.completed_at, task.last_status_change,
        task.notion_metadata, now⟩ ∧
    rowCount (processOne now table task) task.notion_task_id =
      rowCount table task.notion_task_id + 1 := by
  have hedge : get_task_by_notion_id table task.notion_task_id = none := hnone
  unfold processOne
  rw [hedge]
  constructor
  · unfold rowFor
    rw [List.find?_append]
    unfold rowFor at hnone
    rw [hnone]
    rw [List.find?_cons_of_pos _ (by simp)]
    rfl
  · unfold rowCount
    rw [List.countP_append, List.countP_singleton]
    simp

theorem processOne_same_some (now : ℕ) (table : List TaskActivity)
    (task : TaskInput) (r : TaskActivity)
    (hsome : rowFor table task.notion_task_id = some r) :
    rowFor (processOne now table task) task.notion_task_id =
      some (applyTaskUpdate task now r) ∧
    rowCount (processOne now table task) task.notion_task_id =
      rowCount table task.notion_task_id := by
  have hedge : get_task_by_notion_id table task.notion_task_id = some r := hsome
  unfold processOne
  rw [hedge]
  constructor
  · unfold rowFor
    exact CacheTasks.find?_updateFirst_same _ _ (fun x => by
      simp only [applyTaskUpdate_id]) table r hsome
  · unfold rowCount
    apply countP_updateFirst
    intro x
    rw [applyTaskUpdate_id]

theorem bulk_rowCount_le (now : ℕ) :
    ∀ (inputs : List TaskInput) (table : List TaskActivity) (id : String),
      rowCount table id ≤ 1 →
      rowCount (bulk_create_tasks now inputs table) id ≤ 1 := by
  intro inputs
  induction inputs with
  | nil => intro table id h; exact h
  | cons task rest ih =>
      intro table id h
      show rowCount (bulk_create_tasks now rest (processOne now table task)) id ≤ 1
      apply ih
      by_cases hne : task.notion_task_id = id
      · subst hne
        cases hrow : rowFor table task.notion_task_id with
        | none =>
            rw [(processOne_same_none now table task hrow).2,
              rowFor_none_rowCount_zero table _ hrow]
        | some r =>
            rw [(processOne_same_some now table task r hrow).2]
            exact h
      · rw [(processOne_other now table task id hne).2]
        exact h

theorem bulk_owner_preserved (now : ℕ) :
    ∀ (inputs : List TaskInput) (table : List TaskActivity) (id : String)
      (r0 : TaskActivity), rowFor table id = some r0 →
      ∃ r1, rowFor (bulk_create_tasks now inputs table) id = some r1 ∧
        r1.person_id = r0.person_id := by
  intro inputs
  induction inputs with
  | nil => intro table id r0 h; exact ⟨r0, h, rfl⟩
  | cons task rest ih =>
      intro table id r0 h
      show ∃ r1, rowFor (bulk_create_tasks now rest (processOne now table task)) id =
        some r1 ∧ r1.person_id = r0.person_id
      by_cases hne : task.notion_task_id = id
      · subst hne
        obtain ⟨hfind, -⟩ := processOne_same_some now table task r0 h
        obtain ⟨r1, hr1, hp1⟩ := ih (processOne now table task) _ _ hfind
        exact ⟨r1, hr1, by rw [hp1, applyTaskUpdate_person]⟩
      · obtain ⟨hfind, -⟩ := processOne_other now table task id hne
        obtain ⟨r1, hr1, hp1⟩ := ih (processOne now table task) id r0 (by rw [hfind]; exact h)
        exact ⟨r1, hr1, hp1⟩

theorem bulk_first_assignee (now : ℕ) :
    ∀ (inputs : List TaskInput) (table : List TaskActivity) (id : String)
      (t0 : TaskInput), rowFor table id = none →
      inputs.find? (fun t => t.notion_task_id == id) = some t0 →
      ∃ r1, rowFor (bulk_create_tasks now inputs table) id = some r1 ∧
        r1.person_id = t0.person_id := by
  intro inputs
  induction inputs with
  | nil => intro table id t0 h hf; cases hf
  | cons task rest ih =>
      intro table id t0 h hf
      by_cases hq : ((fun t : TaskInput => t.notion_task_id == id) task) = true
      · rw [@List.find?_cons_of_pos TaskInput
          (fun t => t.notion_task_id == id) task rest hq] at hf
        injection hf with hft
        subst hft
        have heq : task.notion_task_id = id := by simpa using hq
        show ∃ r1, rowFor (bulk_create_tasks now rest (processOne now table task)) id =
          some r1 ∧ r1.person_id = task.person_id
        obtain ⟨hfind, -⟩ :=
          processOne_same_none now table task (by rw [heq]; exact h)
        rw [heq] at hfind
        obtain ⟨r1, hr1, hp1⟩ :=
          bulk_owner_preserved now rest (processOne now table task) id _ hfind
        exact ⟨r1, hr1, hp1⟩
      · rw [@List.find?_cons_of_neg TaskInput
          (fun t => t.notion_task_id == id) task rest (by simpa using hq)] at hf
        have hne : task.notion_task_id ≠ id := by simpa using hq
        obtain ⟨hfind, -⟩ := processOne_other now table task id hne
        show ∃ r1, rowFor (bulk_create_tasks now rest (processOne now table task)) id =
          some r1 ∧ r1.person_id = t0.person_id
        exact ih (processOne now table task) id t0 (by rw [hfind]; exact h) hf

/-- **C10.** The task ledger keeps at most one row per external Notion task
ID across any sequence of sync passes; `bulk_create_tasks` matches existing
rows by `notion_task_id` alone, so when the source reports one task as
completed by several assignees, the first prepared entry creates the row
with its person and every later entry for the same task only updates the
row's mutable fields, never its owning person. -/
theorem bulk_create_tasks_unique_owner :
    (∀ (batches : List (List TaskInput × ℕ)) (table : List TaskActivity)
        (id : String), rowCount table id ≤ 1 →
        rowCount (syncSequence batches table) id ≤ 1) ∧
    (∀ (now : ℕ) (inputs : List TaskInput) (table : List TaskActivity)
        (id : String) (r0 : TaskActivity), rowFor table id = some r0 →
        ∃ r1, rowFor (bulk_create_tasks now inputs table) id = some r1 ∧
          r1.person_id = r0.person_id) ∧
    (∀ (now : ℕ) (inputs : List TaskInput) (table : List TaskActivity)
        (id : String) (t0 : TaskInput), rowFor table id = none →
        inputs.find? (fun t => t.notion_task_id == id) = some t0 →
        ∃ r1, rowFor (bulk_create_tasks now inputs table) id = some r1 ∧
          r1.person_id = t0.person_id) := by
  refine ⟨?_, fun now => bulk_owner_preserved now,
    fun now => bulk_first_assignee now⟩
  intro batches
  induction batches with
  | nil => intro table id h; exact h
  | cons b bs ih =>
      intro table id h
      exact ih (bulk_create_tasks b.2 b.1 table) id
        (bulk_rowCount_le b.2 b.1 table id h)

/-- Witness for C10: two prepared entries for the same task "T" by persons 1
and 2; the resulting single row is owned by person 1 (the first entry). -/
theorem bulk_create_tasks_unique_owner_witness :
    rowFor ([] : List TaskActivity) "T" = none ∧
    ∃ r1, rowFor (bulk_create_tasks 5
        [⟨1, "T", none, none, 10, none, none⟩,
         ⟨2, "T", some "x", none, 11, none, none⟩] []) "T" = some r1 ∧
      r1.person_id =
        (⟨1, "T", none, none, 10, none, none⟩ : TaskInput).person_id :=
  ⟨rfl,
   bulk_create_tasks_unique_owner.2.2 5
     [⟨1, "T", none, none, 10, none, none⟩,
      ⟨2, "T", some "x", none, 11, none, none⟩] [] "T"
     ⟨1, "T", none, none, 10, none, none⟩ rfl (by decide)⟩

end TaskLedger
